import Mathlib

/-!
# LRU cache (`lru_cache.cpp`): embedding and verification

The C++ program keeps its entries in heap-allocated `Node`s that are linked
into a doubly linked list bounded by two sentinel nodes, and indexes them by
key in an `unordered_map<int, Node*>`.

The embedding is shallow and pointer-level:

* a pointer is a natural number, `nullptr` is `0`;
* the free store is a partial map from addresses to `Node`s together with the
  next unused address: `new` returns an address that was never used before, so
  a deleted node's address is not handed out again;
* every member function is a function on the explicit state, returning
  `Option`: `none` stands for undefined behaviour (dereferencing `nullptr` or a
  pointer that is not allocated);
* `int` keys and values are `Int` (no arithmetic is done on them); the only
  place where machine arithmetic matters is the comparison
  `cache.size() > capacity`, which converts the `int` to a 64-bit unsigned.
-/

namespace LRU

/-! ## Data model -/

/-- A `Node*`. -/
abbrev Ptr := Nat

/-- The null pointer. -/
abbrev nullptr : Ptr := 0

/-- Class `Node` (lines 5-12). -/
structure Node where
  key : Int
  val : Int
  prev : Ptr
  next : Ptr
deriving DecidableEq, Repr

/-- Constructor `Node(int k, int v) : key(k), val(v), prev(nullptr), next(nullptr)`. -/
def Node.new (k v : Int) : Node := ⟨k, v, nullptr, nullptr⟩

/-- Class `LRUCache` (lines 14-19) together with the free store its nodes live in:
`mem` maps an allocated address to its node, `brk` is the next address `new`
returns. The index `cache` is an association list with at most one pair per key;
its order is not observable (the map is never iterated). -/
structure LRUCache where
  capacity : Int
  cache : List (Int × Ptr)
  head : Ptr
  tail : Ptr
  mem : Ptr → Option Node
  brk : Nat

/-! ## The index: `unordered_map<int, Node*>` -/

/-- The lookup `cache.find(key)` followed by reading the mapped pointer:
`none` is `cache.end()`. -/
def find : List (Int × Ptr) → Int → Option Ptr
  | [], _ => none
  | (k, p) :: m, key => if k = key then some p else find m key

/-- The call `cache.erase(key)`. -/
def erase (m : List (Int × Ptr)) (key : Int) : List (Int × Ptr) :=
  m.filter fun e => decide (e.1 ≠ key)

/-- The assignment `cache[key] = p`. -/
def assign (m : List (Int × Ptr)) (key : Int) (p : Ptr) : List (Int × Ptr) :=
  (key, p) :: erase m key

/-- The comparison `cache.size() > capacity` (line 72): `size()` is a `size_t`, so the
`int` operand is converted to a 64-bit unsigned value before comparing. -/
def sizeExceeds (size : Nat) (capacity : Int) : Bool :=
  decide ((size : Int) > capacity % 2 ^ 64)

/-! ## The free store -/

/-- Read the node `*p`; undefined for `nullptr` and for unallocated addresses. -/
def load (c : LRUCache) (p : Ptr) : Option Node :=
  if p = nullptr then none else c.mem p

/-- Overwrite the node at `p`. -/
def store (c : LRUCache) (p : Ptr) (n : Node) : LRUCache :=
  { c with mem := Function.update c.mem p (some n) }

/-- The expression `new Node(k, v)`: returns the fresh address. -/
def alloc (c : LRUCache) (k v : Int) : Ptr × LRUCache :=
  (c.brk, { c with mem := Function.update c.mem c.brk (some (Node.new k v)), brk := c.brk + 1 })

/-- The statement `delete p`. -/
def free (c : LRUCache) (p : Ptr) : Option LRUCache :=
  (load c p).map fun _ => { c with mem := Function.update c.mem p none }

/-- The assignment `p->prev = q`. -/
def setPrev (c : LRUCache) (p q : Ptr) : Option LRUCache :=
  (load c p).map fun n => store c p { n with prev := q }

/-- The assignment `p->next = q`. -/
def setNext (c : LRUCache) (p q : Ptr) : Option LRUCache :=
  (load c p).map fun n => store c p { n with next := q }

/-- The assignment `p->val = v`. -/
def setVal (c : LRUCache) (p : Ptr) (v : Int) : Option LRUCache :=
  (load c p).map fun n => store c p { n with val := v }

/-! ## Member functions -/

/-- `LRUCache::addNode` (lines 21-26). -/
def addNode (c : LRUCache) (node : Ptr) : Option LRUCache := do
  let c ← setPrev c node c.head
  let h ← load c c.head
  let c ← setNext c node h.next
  let h ← load c c.head
  let c ← setPrev c h.next node
  setNext c c.head node

/-- `LRUCache::removeNode` (lines 28-33). -/
def removeNode (c : LRUCache) (node : Ptr) : Option LRUCache := do
  let n ← load c node
  let prevNode := n.prev
  let nextNode := n.next
  let c ← setNext c prevNode nextNode
  setPrev c nextNode prevNode

/-- `LRUCache::moveToHead` (lines 35-38). -/
def moveToHead (c : LRUCache) (node : Ptr) : Option LRUCache := do
  let c ← removeNode c node
  addNode c node

/-- `LRUCache::popTail` (lines 40-44). -/
def popTail (c : LRUCache) : Option (Ptr × LRUCache) := do
  let t ← load c c.tail
  let res := t.prev
  let c ← removeNode c res
  pure (res, c)

/-- The constructor `LRUCache::LRUCache(int cap)` (lines 47-52), run on an empty free
store. -/
def LRUCache.new (cap : Int) : Option LRUCache := do
  let c : LRUCache :=
    { capacity := cap, cache := [], head := nullptr, tail := nullptr,
      mem := fun _ => none, brk := 1 }
  let (h, c) := alloc c (-1) (-1)
  let c := { c with head := h }
  let (t, c) := alloc c (-1) (-1)
  let c := { c with tail := t }
  let c ← setNext c c.head c.tail
  setPrev c c.tail c.head

/-- `LRUCache::get` (lines 54-61). -/
def get (c : LRUCache) (key : Int) : Option (Int × LRUCache) :=
  match find c.cache key with
  | none => some (-1, c)
  | some node => do
    let c ← moveToHead c node
    let n ← load c node
    pure (n.val, c)

/-- `LRUCache::put` (lines 63-78). -/
def put (c : LRUCache) (key value : Int) : Option LRUCache :=
  match find c.cache key with
  | some node => do
    let c ← setVal c node value
    moveToHead c node
  | none => do
    let (newNode, c) := alloc c key value
    let c := { c with cache := assign c.cache key newNode }
    let c ← addNode c newNode
    if sizeExceeds c.cache.length c.capacity then do
      let (toRemove, c) ← popTail c
      let r ← load c toRemove
      let c := { c with cache := erase c.cache r.key }
      free c toRemove
    else
      pure c

/-! ## Call sequences -/

/-- One call of the public interface. -/
inductive Op where
  | get (key : Int)
  | put (key value : Int)
deriving DecidableEq, Repr

/-- A cache together with the bookkeeping the recency claims talk about: `clock` is the
time of the next call (the first call happens at time 1), `last k` is the time of the
most recent access to key `k`, that is a `put` of `k` or a `get` that found `k` in the
index (0 if there was none), and `outs` lists the results of the `get` calls made so
far, oldest first (what `main` prints). -/
structure Run where
  cache : LRUCache
  clock : Nat
  last : Int → Nat
  outs : List Int

/-- Perform one call, recording its access time and, for a `get`, its result. -/
def Run.step (r : Run) : Op → Option Run
  | .get key =>
    (get r.cache key).map fun (v, c) =>
      { cache := c, clock := r.clock + 1,
        last := if (find r.cache.cache key).isSome then Function.update r.last key r.clock
                else r.last,
        outs := r.outs ++ [v] }
  | .put key value =>
    (put r.cache key value).map fun c =>
      { cache := c, clock := r.clock + 1,
        last := Function.update r.last key r.clock,
        outs := r.outs }

/-- Perform a sequence of calls, left to right. -/
def Run.steps (r : Run) : List Op → Option Run
  | [] => some r
  | op :: ops => (r.step op).bind fun r => r.steps ops

/-- Construct a cache of capacity `cap` and perform `ops` on it. -/
def run (cap : Int) (ops : List Op) : Option Run :=
  (LRUCache.new cap).bind fun c =>
    Run.steps { cache := c, clock := 1, last := fun _ => 0, outs := [] } ops

/-- The key a call is about. -/
def Op.key : Op → Int
  | .get key => key
  | .put key _ => key

/-- The values of the C++ type `int` (32 bits, two's complement). -/
def IsInt (x : Int) : Prop := -(2 ^ 31) ≤ x ∧ x < 2 ^ 31

/-! ## Reading the list -/

/-- A non-sentinel node as found by walking the list: its address, key and value. -/
structure Entry where
  ptr : Ptr
  key : Int
  val : Int
deriving DecidableEq, Repr

/-- Follow `next` from `p` until the tail sentinel, at most `fuel` nodes. -/
def walk (c : LRUCache) : Nat → Ptr → Option (List Entry)
  | 0, _ => none
  | fuel + 1, p =>
    if p = c.tail then some []
    else
      match load c p with
      | none => none
      | some n => (walk c fuel n.next).map fun es => ⟨p, n.key, n.val⟩ :: es

/-- The nodes from the head sentinel's successor to the tail sentinel's predecessor.
Every allocated address is below `brk`, so `brk` steps suffice for any list that
does not revisit a node. -/
def entries (c : LRUCache) : Option (List Entry) :=
  (load c c.head).bind fun h => walk c c.brk h.next

/-- The keys in list order, most recently used first. -/
def keys (c : LRUCache) : Option (List Int) :=
  (entries c).map fun es => es.map Entry.key

/-- The key-value pairs in list order, most recently used first. -/
def contents (c : LRUCache) : Option (List (Int × Int)) :=
  (entries c).map fun es => es.map fun e => (e.key, e.val)

/-- The keys of the index. -/
def indexKeys (c : LRUCache) : List Int := c.cache.map Prod.fst

/-- The program of `main` (lines 81-93). -/
def mainOps : List Op :=
  [.put 1 1, .put 2 2, .get 1, .put 3 3, .get 2, .put 4 4, .get 1, .get 3, .get 4]

/-- Follow `next` from `p` up to and including the tail sentinel, at most `fuel`
nodes. -/
def walkNext (c : LRUCache) : Nat → Ptr → Option (List Ptr)
  | 0, _ => none
  | fuel + 1, p =>
    if p = c.tail then some [p]
    else
      match load c p with
      | none => none
      | some n => (walkNext c fuel n.next).map fun ps => p :: ps

/-- The addresses met when following `next` from the head sentinel to the tail
sentinel, both included. -/
def forward (c : LRUCache) : Option (List Ptr) := walkNext c c.brk c.head

/-- Follow `prev` from `p` up to and including the head sentinel, at most `fuel`
nodes. -/
def walkPrev (c : LRUCache) : Nat → Ptr → Option (List Ptr)
  | 0, _ => none
  | fuel + 1, p =>
    if p = c.head then some [p]
    else
      match load c p with
      | none => none
      | some n => (walkPrev c fuel n.prev).map fun ps => p :: ps

/-- The addresses met when following `prev` from the tail sentinel to the head
sentinel, both included. -/
def backward (c : LRUCache) : Option (List Ptr) := walkPrev c c.brk c.tail

/-! ## The abstract cache

The abstract model of the refinement claim, written from the claim's words and not
from the code: the state is a list of key-value pairs, most recent first. -/

/-- Abstract `get(k)`: returns the value of `k` and moves its pair to the front, or
returns `-1` and changes nothing. -/
def absGet (l : List (Int × Int)) (k : Int) : Int × List (Int × Int) :=
  match l.find? fun x => decide (x.1 = k) with
  | some x => (x.2, (k, x.2) :: l.filter fun y => decide (y.1 ≠ k))
  | none => (-1, l)

/-- Abstract `put(k, v)` with capacity `cap`: replaces the pair of `k` and moves it to
the front, or prepends `(k, v)` and then drops the last pair if the length exceeds the
capacity. -/
def absPut (cap : Int) (l : List (Int × Int)) (k v : Int) : List (Int × Int) :=
  if k ∈ l.map Prod.fst then (k, v) :: l.filter fun y => decide (y.1 ≠ k)
  else if (((k, v) :: l).length : Int) > cap then ((k, v) :: l).dropLast
  else (k, v) :: l

/-- One call on the abstract cache; the first component collects the `get` results. -/
def absStep (cap : Int) (s : List Int × List (Int × Int)) : Op → List Int × List (Int × Int)
  | .get k => (s.1 ++ [(absGet s.2 k).1], (absGet s.2 k).2)
  | .put k v => (s.1, absPut cap s.2 k v)

/-- A call sequence on the initially empty abstract cache: the `get` results and the
final list. -/
def absRun (cap : Int) (ops : List Op) : List Int × List (Int × Int) :=
  ops.foldl (absStep cap) ([], [])

/-! ## Field views of the free store

For the proofs the free store is read one field at a time: `key`, `val`, `prev` and
`next` are partial maps defined exactly on the allocated addresses. Each primitive
statement changes these maps at one address. -/

/-- The state seen field by field. -/
@[ext]
structure View where
  capacity : Int
  cache : List (Int × Ptr)
  head : Ptr
  tail : Ptr
  brk : Nat
  key : Ptr → Option Int
  val : Ptr → Option Int
  prev : Ptr → Option Ptr
  next : Ptr → Option Ptr

/-- The field view of a state. -/
def view (c : LRUCache) : View where
  capacity := c.capacity
  cache := c.cache
  head := c.head
  tail := c.tail
  brk := c.brk
  key p := (load c p).map Node.key
  val p := (load c p).map Node.val
  prev p := (load c p).map Node.prev
  next p := (load c p).map Node.next

/-! ## Representation invariant -/

/-- The address list `L` is a doubly linked path of allocated nodes: no address occurs
twice, each node's `next` is its successor in `L` and each node's `prev` is its
predecessor in `L`. -/
structure Links (w : View) (L : List Ptr) : Prop where
  nodup : L.Nodup
  fwd : L.Chain' fun a b => w.next a = some b
  bwd : L.Chain' fun a b => w.prev b = some a
  alive : ∀ p ∈ L, (w.key p).isSome
  bound : ∀ p ∈ L, p < w.brk

/-- The full list of a cache holding the entries `es`: head sentinel, entries, tail
sentinel. -/
def chainOf (w : View) (es : List Entry) : List Ptr :=
  w.head :: (es.map Entry.ptr ++ [w.tail])

/-- The state represents the entries `es`, most recently used first: the list between
the sentinels consists of the nodes of `es` in this order with their keys and values,
and the index holds exactly the pairs `(e.key, e.ptr)`. -/
structure InvV (w : View) (es : List Entry) : Prop where
  links : Links w (chainOf w es)
  data : ∀ e ∈ es, w.key e.ptr = some e.key ∧ w.val e.ptr = some e.val
  idx : w.cache.Perm (es.map fun e => (e.key, e.ptr))
  keys : (es.map Entry.key).Nodup

/-- The representation invariant on states. -/
def Inv (c : LRUCache) (es : List Entry) : Prop := InvV (view c) es

/-- The list of `c` is well formed and consists of the entries `es`: head sentinel,
the nodes of `es` in this order and tail sentinel form a doubly linked path, and each
node carries the key and value of its entry. Nothing is required of the index. -/
structure WellFormed (c : LRUCache) (es : List Entry) : Prop where
  links : Links (view c) (chainOf (view c) es)
  data : ∀ e ∈ es, (view c).key e.ptr = some e.key ∧ (view c).val e.ptr = some e.val

/-- The invariant of a run on a cache constructed with capacity `cap`: the state
represents `es`, the number of entries does not exceed the converted capacity, the
entries are ordered by strictly decreasing time of last access, and every access time
lies in the past. -/
structure RunInv (cap : Int) (r : Run) (es : List Entry) : Prop where
  inv : Inv r.cache es
  cap_eq : r.cache.capacity = cap
  size_le : (es.length : Int) ≤ cap % 2 ^ 64
  recent : (es.map Entry.key).Pairwise fun a b => r.last b < r.last a
  stamped : ∀ k ∈ es.map Entry.key, r.last k < r.clock

/-! # Verification -/

theorem load_of_key {c : LRUCache} {p : Ptr} (h : ((view c).key p).isSome) :
    ∃ n, load c p = some n := by
  cases hl : load c p with
  | none => simp [view, hl] at h
  | some n => exact ⟨n, rfl⟩

theorem load_ne_null {c : LRUCache} {p : Ptr} {n : Node} (h : load c p = some n) :
    p ≠ nullptr := by
  intro hp
  simp [load, hp] at h

theorem load_store {c : LRUCache} {p : Ptr} (n : Node) (hp : p ≠ nullptr) (a : Ptr) :
    load (store c p n) a = if a = p then some n else load c a := by
  unfold load store
  by_cases ha : a = p
  · subst ha
    simp [hp]
  · simp [ha, Function.update_noteq ha]

theorem setNext_view {c : LRUCache} {p : Ptr} (q : Ptr) (h : ((view c).key p).isSome) :
    ∃ c', setNext c p q = some c' ∧
      view c' = { view c with next := Function.update (view c).next p (some q) } := by
  obtain ⟨n, hn⟩ := load_of_key h
  have hp := load_ne_null hn
  refine ⟨store c p { n with next := q }, by simp [setNext, hn], ?_⟩
  ext : 1 <;> try rfl
  all_goals
    funext a
    by_cases ha : a = p
    · subst ha
      simp [view, load_store _ hp, hn]
    · simp [view, load_store _ hp, ha, Function.update_noteq ha]

theorem setPrev_view {c : LRUCache} {p : Ptr} (q : Ptr) (h : ((view c).key p).isSome) :
    ∃ c', setPrev c p q = some c' ∧
      view c' = { view c with prev := Function.update (view c).prev p (some q) } := by
  obtain ⟨n, hn⟩ := load_of_key h
  have hp := load_ne_null hn
  refine ⟨store c p { n with prev := q }, by simp [setPrev, hn], ?_⟩
  ext : 1 <;> try rfl
  all_goals
    funext a
    by_cases ha : a = p
    · subst ha
      simp [view, load_store _ hp, hn]
    · simp [view, load_store _ hp, ha, Function.update_noteq ha]

theorem setVal_view {c : LRUCache} {p : Ptr} (v : Int) (h : ((view c).key p).isSome) :
    ∃ c', setVal c p v = some c' ∧
      view c' = { view c with val := Function.update (view c).val p (some v) } := by
  obtain ⟨n, hn⟩ := load_of_key h
  have hp := load_ne_null hn
  refine ⟨store c p { n with val := v }, by simp [setVal, hn], ?_⟩
  ext : 1 <;> try rfl
  all_goals
    funext a
    by_cases ha : a = p
    · subst ha
      simp [view, load_store _ hp, hn]
    · simp [view, load_store _ hp, ha, Function.update_noteq ha]

theorem free_view {c : LRUCache} {p : Ptr} (h : ((view c).key p).isSome) :
    ∃ c', free c p = some c' ∧
      view c' = { view c with
        key := Function.update (view c).key p none
        val := Function.update (view c).val p none
        prev := Function.update (view c).prev p none
        next := Function.update (view c).next p none } := by
  obtain ⟨n, hn⟩ := load_of_key h
  refine ⟨{ c with mem := Function.update c.mem p none }, by simp [free, hn], ?_⟩
  ext : 1 <;> try rfl
  all_goals
    funext a
    by_cases ha : a = p
    · subst ha
      simp [view, load]
    · simp [view, load, ha, Function.update_noteq ha]

theorem alloc_view (c : LRUCache) (k v : Int) (h : c.brk ≠ 0) :
    view (alloc c k v).2 = { view c with
        brk := c.brk + 1
        key := Function.update (view c).key c.brk (some k)
        val := Function.update (view c).val c.brk (some v)
        prev := Function.update (view c).prev c.brk (some nullptr)
        next := Function.update (view c).next c.brk (some nullptr) } := by
  ext : 1 <;> try rfl
  all_goals
    funext a
    by_cases ha : a = c.brk
    · subst ha
      simp [view, load, alloc, h, Node.new]
    · simp [view, load, alloc, ha, Function.update_noteq ha]

/-! ## Doubly linked paths -/

theorem chain_frame {α : Type} {R S : α → α → Prop} :
    ∀ {l : List α}, l.Chain' R →
      (∀ a b, a ∈ l.dropLast → b ∈ l.tail → R a b → S a b) → l.Chain' S
  | [], _, _ => List.chain'_nil
  | [_], _, _ => List.chain'_singleton _
  | a :: b :: l, h, H => by
    rw [List.chain'_cons] at h ⊢
    refine ⟨H a b (by simp) (by simp) h.1, chain_frame h.2 fun a' b' ha' hb' hab => ?_⟩
    refine H a' b' ?_ ?_ hab
    · simp only [List.dropLast_cons₂]
      exact List.mem_cons_of_mem _ ha'
    · simp only [List.tail_cons]
      exact List.mem_of_mem_tail hb'

theorem Links.frame {w w' : View} {L : List Ptr} (h : Links w L)
    (hn : ∀ p ∈ L, w'.next p = w.next p) (hp : ∀ p ∈ L, w'.prev p = w.prev p)
    (hk : ∀ p ∈ L, w'.key p = w.key p) (hb : w.brk ≤ w'.brk) : Links w' L where
  nodup := h.nodup
  fwd := chain_frame h.fwd fun a b ha _ hab => by
    rw [hn a (List.mem_of_mem_dropLast ha)]
    exact hab
  bwd := chain_frame h.bwd fun a b _ hb hab => by
    rw [hp b (List.mem_of_mem_tail hb)]
    exact hab
  alive p hp' := by
    rw [hk p hp']
    exact h.alive p hp'
  bound p hp' := lt_of_lt_of_le (h.bound p hp') hb

/-- Unlinking `x` from between `p` and `q`. -/
theorem Links.unlink {w : View} {A B : List Ptr} {p x q : Ptr}
    (h : Links w (A ++ p :: x :: q :: B)) :
    Links { w with next := Function.update w.next p (some q)
                   prev := Function.update w.prev q (some p) } (A ++ p :: q :: B) := by
  have hnd := h.nodup
  have hsub : (A ++ p :: q :: B).Sublist (A ++ p :: x :: q :: B) :=
    List.Sublist.append_left ((List.sublist_cons_self x (q :: B)).cons₂ p) A
  have hpq : p ≠ q := by
    have := (List.nodup_append.1 hnd).2.1
    simp only [List.nodup_cons, List.mem_cons, not_or] at this
    exact this.1.2.1
  have hf := h.fwd
  have hb := h.bwd
  rw [List.chain'_split, List.chain'_cons, List.chain'_cons] at hf hb
  refine ⟨hnd.sublist hsub, ?_, ?_, fun a ha => h.alive a (hsub.subset ha),
    fun a ha => h.bound a (hsub.subset ha)⟩
  · rw [List.chain'_split, List.chain'_cons]
    refine ⟨chain_frame hf.1 fun a b ha _ hab => ?_, by simp, chain_frame hf.2.2.2 fun a b ha _ hab => ?_⟩
    · have hap : a ≠ p := by
        rintro rfl
        simp only [List.dropLast_concat] at ha
        have := (List.nodup_append.1 hnd).2.2
        exact this ha (List.mem_cons_self _ _) 
      simpa [Function.update_noteq hap] using hab
    · have hap : a ≠ p := by
        rintro rfl
        have ha' : a ∈ q :: B := List.mem_of_mem_dropLast ha
        have := (List.nodup_append.1 hnd).2.1
        simp only [List.nodup_cons, List.mem_cons, not_or] at this
        rcases List.mem_cons.1 ha' with h1 | h1
        · exact hpq h1
        · exact this.1.2.2 h1
      simpa [Function.update_noteq hap] using hab
  · rw [List.chain'_split, List.chain'_cons]
    refine ⟨chain_frame hb.1 fun a b _ hb' hab => ?_, by simp, chain_frame hb.2.2.2 fun a b _ hb' hab => ?_⟩
    · have hbq : b ≠ q := by
        rintro rfl
        have hb'' : b ∈ A ++ [p] := List.mem_of_mem_tail hb'
        have := List.disjoint_of_nodup_append hnd
        rcases List.mem_append.1 hb'' with h1 | h1
        · exact this h1 (by simp)
        · exact hpq (List.mem_singleton.1 h1).symm
      simpa [Function.update_noteq hbq] using hab
    · have hbq : b ≠ q := by
        rintro rfl
        simp only [List.tail_cons] at hb'
        have := (List.nodup_append.1 hnd).2.1
        simp only [List.nodup_cons, List.mem_cons, not_or] at this
        exact this.2.2.1 hb'
      simpa [Function.update_noteq hbq] using hab

/-- Linking the unlinked node `x` right behind `hd`. -/
theorem Links.push {w : View} {B : List Ptr} {hd x f : Ptr}
    (h : Links w (hd :: f :: B)) (hx : x ∉ hd :: f :: B) (hxa : (w.key x).isSome)
    (hxb : x < w.brk) :
    Links { w with prev := Function.update (Function.update w.prev x (some hd)) f (some x)
                   next := Function.update (Function.update w.next x (some f)) hd (some x) }
      (hd :: x :: f :: B) := by
  have hnd := h.nodup
  simp only [List.mem_cons, not_or] at hx
  obtain ⟨hxh, hxf, hxB⟩ := hx
  have hnd' := hnd
  simp only [List.nodup_cons, List.mem_cons, not_or] at hnd'
  obtain ⟨⟨hhf, hhB⟩, hfB, -⟩ := hnd'
  have hf := h.fwd
  have hb := h.bwd
  rw [List.chain'_cons] at hf hb
  refine ⟨?_, ?_, ?_, ?_, ?_⟩
  · simp only [List.nodup_cons, List.mem_cons, not_or]
    exact ⟨⟨fun e => hxh e.symm, hhf, hhB⟩, ⟨hxf, hxB⟩, hfB, (List.nodup_cons.1 (List.nodup_cons.1 hnd).2).2⟩
  · rw [List.chain'_cons, List.chain'_cons]
    refine ⟨by simp, by simp [Function.update_noteq hxh], chain_frame hf.2 fun a b ha _ hab => ?_⟩
    have ha' : a ∈ f :: B := List.mem_of_mem_dropLast ha
    have hah : a ≠ hd := by
      rintro rfl
      rcases List.mem_cons.1 ha' with h1 | h1
      · exact hhf h1
      · exact hhB h1
    have hax : a ≠ x := by
      rintro rfl
      rcases List.mem_cons.1 ha' with h1 | h1
      · exact hxf h1
      · exact hxB h1
    simpa [Function.update_noteq hah, Function.update_noteq hax] using hab
  · rw [List.chain'_cons, List.chain'_cons]
    refine ⟨by simp [Function.update_noteq hxf], by simp, chain_frame hb.2 fun a b _ hb' hab => ?_⟩
    simp only [List.tail_cons] at hb'
    have hbf : b ≠ f := by
      rintro rfl
      exact hfB hb'
    have hbx : b ≠ x := by
      rintro rfl
      exact hxB hb'
    simpa [Function.update_noteq hbf, Function.update_noteq hbx] using hab
  · intro a ha
    rcases List.mem_cons.1 ha with h1 | h1
    · exact h1 ▸ h.alive hd (List.mem_cons_self _ _)
    · rcases List.mem_cons.1 h1 with h2 | h2
      · exact h2 ▸ hxa
      · exact h.alive a (List.mem_cons_of_mem _ h2)
  · intro a ha
    rcases List.mem_cons.1 ha with h1 | h1
    · exact h1 ▸ h.bound hd (List.mem_cons_self _ _)
    · rcases List.mem_cons.1 h1 with h2 | h2
      · exact h2 ▸ hxb
      · exact h.bound a (List.mem_cons_of_mem _ h2)

/-! ## The list primitives on field views -/

theorem removeNode_view {c : LRUCache} {x p q : Ptr}
    (hp : (view c).prev x = some p) (hq : (view c).next x = some q)
    (hpa : ((view c).key p).isSome) (hqa : ((view c).key q).isSome) :
    ∃ c', removeNode c x = some c' ∧
      view c' = { view c with next := Function.update (view c).next p (some q)
                              prev := Function.update (view c).prev q (some p) } := by
  cases hl : load c x with
  | none => simp [view, hl] at hp
  | some n =>
    have hnp : n.prev = p := by simpa [view, hl] using hp
    have hnq : n.next = q := by simpa [view, hl] using hq
    obtain ⟨c1, h1, v1⟩ := setNext_view q hpa
    have hqa1 : ((view c1).key q).isSome := by rw [v1]; exact hqa
    obtain ⟨c2, h2, v2⟩ := setPrev_view p hqa1
    refine ⟨c2, ?_, ?_⟩
    · simp [removeNode, hl, hnp, hnq, h1, h2]
    · rw [v2, v1]

theorem addNode_view {c : LRUCache} {x f : Ptr}
    (hxa : ((view c).key x).isSome) (hxh : x ≠ (view c).head)
    (hf : (view c).next (view c).head = some f) (hfa : ((view c).key f).isSome) :
    ∃ c', addNode c x = some c' ∧
      view c' = { view c with
        prev := Function.update (Function.update (view c).prev x (some (view c).head)) f (some x)
        next := Function.update (Function.update (view c).next x (some f)) (view c).head
          (some x) } := by
  have hha : ((view c).key (view c).head).isSome := by
    cases hl : load c c.head with
    | none => simp [view, hl] at hf
    | some n => simp [view, hl]
  obtain ⟨c1, h1, v1⟩ := setPrev_view (view c).head hxa
  have hc1 : c1.head = c.head := congrArg View.head v1
  obtain ⟨n1, hn1⟩ : ∃ n, load c1 c1.head = some n := load_of_key (by rw [v1, hc1]; exact hha)
  have hn1f : n1.next = f := by
    have : (view c1).next c1.head = some f := by rw [v1, hc1]; exact hf
    simpa [view, hn1] using this
  obtain ⟨c2, h2, v2⟩ := setNext_view (c := c1) (p := x) f (by rw [v1]; exact hxa)
  have hc2 : c2.head = c.head := (congrArg View.head v2).trans hc1
  obtain ⟨n2, hn2⟩ : ∃ n, load c2 c2.head = some n :=
    load_of_key (by rw [v2, v1, hc2]; exact hha)
  have hn2f : n2.next = f := by
    have : (view c2).next c2.head = some f := by
      rw [v2, v1, hc2]
      have hhx : c.head ≠ x := fun e => hxh e.symm
      show Function.update (view c).next x (some f) c.head = some f
      rw [Function.update_noteq hhx]
      exact hf
    simpa [view, hn2] using this
  obtain ⟨c3, h3, v3⟩ := setPrev_view (c := c2) (p := f) x (by rw [v2, v1]; exact hfa)
  have hc3 : c3.head = c.head := (congrArg View.head v3).trans hc2
  obtain ⟨c4, h4, v4⟩ := setNext_view (c := c3) (p := c3.head) x
    (by rw [v3, v2, v1, hc3]; exact hha)
  refine ⟨c4, ?_, ?_⟩
  · have e1 : setPrev c x c.head = some c1 := h1
    simp [addNode, e1, hn1, hn1f, h2, hn2, hn2f, h3, h4]
  · rw [v4, v3, v2, v1, hc3]
    rfl

/-! ## The member functions preserve the representation invariant -/

theorem chainOf_split (w : View) (l1 l2 : List Entry) (e : Entry) :
    ∃ A p q B, chainOf w (l1 ++ e :: l2) = A ++ p :: e.ptr :: q :: B ∧
      chainOf w (l1 ++ l2) = A ++ p :: q :: B := by
  obtain ⟨A, p, hA⟩ : ∃ A p, w.head :: l1.map Entry.ptr = A ++ [p] := by
    rcases List.eq_nil_or_concat (w.head :: l1.map Entry.ptr) with h | ⟨A, p, h⟩
    · simp at h
    · exact ⟨A, p, by simpa using h⟩
  obtain ⟨q, B, hB⟩ : ∃ q B, l2.map Entry.ptr ++ [w.tail] = q :: B := by
    cases l2 with
    | nil => exact ⟨_, _, rfl⟩
    | cons a l => exact ⟨_, _, rfl⟩
  refine ⟨A, p, q, B, ?_, ?_⟩
  · have : chainOf w (l1 ++ e :: l2) =
        (w.head :: l1.map Entry.ptr) ++ e.ptr :: (l2.map Entry.ptr ++ [w.tail]) := by
      simp [chainOf]
    rw [this, hA, hB]
    simp
  · have : chainOf w (l1 ++ l2) =
        (w.head :: l1.map Entry.ptr) ++ (l2.map Entry.ptr ++ [w.tail]) := by
      simp [chainOf]
    rw [this, hA, hB]
    simp

theorem not_mem_of_nodup_middle {α : Type} {A B : List α} {x : α}
    (h : (A ++ x :: B).Nodup) : x ∉ A ++ B := by
  intro hx
  have h' : (x :: (A ++ B)).Nodup := (List.perm_middle (a := x)).nodup_iff.1 h
  exact (List.nodup_cons.1 h').1 hx

/-- Unlinking an entry: `removeNode` succeeds, the remaining entries stay linked in
their order and the removed node stays allocated with its key and value. -/
theorem removeNode_inv {c : LRUCache} {l1 l2 : List Entry} {e : Entry}
    (h : Inv c (l1 ++ e :: l2)) :
    ∃ c', removeNode c e.ptr = some c' ∧
      Links (view c') (chainOf (view c) (l1 ++ l2)) ∧
      e.ptr ∉ chainOf (view c) (l1 ++ l2) ∧
      (view c').key = (view c).key ∧ (view c').val = (view c).val ∧
      (view c').cache = (view c).cache ∧ (view c').capacity = (view c).capacity ∧
      (view c').brk = (view c).brk ∧ (view c').head = (view c).head ∧
      (view c').tail = (view c).tail := by
  obtain ⟨A, p, q, B, hL, hL'⟩ := chainOf_split (view c) l1 l2 e
  have hlinks := h.links
  rw [hL] at hlinks
  have hf := hlinks.fwd
  have hb := hlinks.bwd
  rw [List.chain'_split, List.chain'_cons, List.chain'_cons] at hf hb
  have hpa := hlinks.alive p (by simp)
  have hqa := hlinks.alive q (by simp)
  obtain ⟨c', hc', hv⟩ := removeNode_view hb.2.1 hf.2.2.1 hpa hqa
  refine ⟨c', hc', ?_, ?_, ?_⟩
  · rw [hL', hv]
    exact hlinks.unlink
  · rw [hL']
    have hnd : ((A ++ [p]) ++ e.ptr :: (q :: B)).Nodup := by simpa using hlinks.nodup
    simpa using not_mem_of_nodup_middle hnd
  · rw [hv]
    simp

/-- Linking an allocated node that is not in the list in front of the entries. -/
theorem addNode_links {c : LRUCache} {es : List Entry} {x : Ptr}
    (h : Links (view c) (chainOf (view c) es)) (hx : x ∉ chainOf (view c) es)
    (hxa : ((view c).key x).isSome) (hxb : x < (view c).brk) :
    ∃ c', addNode c x = some c' ∧
      Links (view c') ((view c).head :: x :: (es.map Entry.ptr ++ [(view c).tail])) ∧
      (view c').key = (view c).key ∧ (view c').val = (view c).val ∧
      (view c').cache = (view c).cache ∧ (view c').capacity = (view c).capacity ∧
      (view c').brk = (view c).brk ∧ (view c').head = (view c).head ∧
      (view c').tail = (view c).tail := by
  obtain ⟨f, B, hB⟩ : ∃ f B, es.map Entry.ptr ++ [(view c).tail] = f :: B := by
    cases es with
    | nil => exact ⟨_, _, rfl⟩
    | cons a l => exact ⟨_, _, rfl⟩
  have hL : chainOf (view c) es = (view c).head :: f :: B := by
    simp [chainOf, hB]
  rw [hL] at h hx
  have hxh : x ≠ (view c).head := fun e => hx (e ▸ List.mem_cons_self _ _)
  have hf := List.Chain'.rel_head h.fwd
  have hfa := h.alive f (by simp)
  obtain ⟨c', hc', hv⟩ := addNode_view hxa hxh hf hfa
  refine ⟨c', hc', ?_, ?_⟩
  · rw [hB, hv]
    exact h.push hx hxa hxb
  · rw [hv]
    simp

/-- The effect of `moveToHead` on an entry of the list. -/
theorem moveToHead_inv {c : LRUCache} {l1 l2 : List Entry} {e : Entry}
    (h : Inv c (l1 ++ e :: l2)) :
    ∃ c', moveToHead c e.ptr = some c' ∧ Inv c' (e :: (l1 ++ l2)) ∧
      c'.cache = c.cache ∧ c'.capacity = c.capacity ∧ c'.brk = c.brk := by
  obtain ⟨c1, hc1, hl1, hx1, hk1, hv1, hca1, hcp1, hb1, hh1, ht1⟩ := removeNode_inv h
  have hch1 : chainOf (view c1) (l1 ++ l2) = chainOf (view c) (l1 ++ l2) := by
    simp [chainOf, hh1, ht1]
  have hmem : e ∈ l1 ++ e :: l2 := by simp
  have hxa : ((view c1).key e.ptr).isSome := by
    rw [hk1, (h.data e hmem).1]
    rfl
  have hxb : e.ptr < (view c1).brk := by
    rw [hb1]
    exact h.links.bound e.ptr (by simp [chainOf])
  obtain ⟨c2, hc2, hl2, hk2, hv2, hca2, hcp2, hb2, hh2, ht2⟩ :=
    addNode_links (hch1 ▸ hl1) (hch1 ▸ hx1) hxa hxb
  refine ⟨c2, by simp [moveToHead, hc1, hc2], ⟨?_, ?_, ?_, ?_⟩, hca2.trans hca1,
    hcp2.trans hcp1, hb2.trans hb1⟩
  · have : chainOf (view c2) (e :: (l1 ++ l2)) =
        (view c1).head :: e.ptr :: ((l1 ++ l2).map Entry.ptr ++ [(view c1).tail]) := by
      simp [chainOf, hh2, ht2]
    rw [this]
    exact hl2
  · intro e' he'
    rw [hk2, hv2, hk1, hv1]
    refine h.data e' ?_
    simp only [List.mem_cons, List.mem_append] at he' ⊢
    tauto
  · rw [hca2, hca1]
    exact h.idx.trans ((@List.perm_middle _ e l1 l2).map _)
  · have := (@List.perm_middle _ e l1 l2).map Entry.key
    exact this.nodup_iff.1 h.keys

/-! ## The index -/

theorem find_eq_none_iff {m : List (Int × Ptr)} {k : Int} :
    find m k = none ↔ k ∉ m.map Prod.fst := by
  induction m with
  | nil => simp [find]
  | cons a m ih =>
    obtain ⟨k', p⟩ := a
    by_cases hk : k' = k
    · simp [find, hk]
    · simp [find, hk, ih, Ne.symm hk]

theorem mem_of_find {m : List (Int × Ptr)} {k : Int} {p : Ptr} (h : find m k = some p) :
    (k, p) ∈ m := by
  induction m with
  | nil => simp [find] at h
  | cons a m ih =>
    obtain ⟨k', p'⟩ := a
    by_cases hk : k' = k
    · simp [find, hk] at h
      simp [hk, h]
    · simp [find, hk] at h
      exact List.mem_cons_of_mem _ (ih h)

theorem find_of_mem {m : List (Int × Ptr)} {k : Int} {p : Ptr}
    (hnd : (m.map Prod.fst).Nodup) (h : (k, p) ∈ m) : find m k = some p := by
  induction m with
  | nil => simp at h
  | cons a m ih =>
    obtain ⟨k', p'⟩ := a
    simp only [List.map_cons, List.nodup_cons] at hnd
    rcases List.mem_cons.1 h with h1 | h1
    · cases h1
      simp [find]
    · have hk : k' ≠ k := by
        rintro rfl
        exact hnd.1 (List.mem_map.2 ⟨_, h1, rfl⟩)
      simp [find, hk, ih hnd.2 h1]

theorem erase_of_find_none {m : List (Int × Ptr)} {k : Int} (h : find m k = none) :
    erase m k = m := by
  rw [find_eq_none_iff] at h
  refine List.filter_eq_self.2 fun a ha => ?_
  have : a.1 ≠ k := fun e => h (List.mem_map.2 ⟨a, ha, e⟩)
  simpa using this

theorem Inv.cache_keys {c : LRUCache} {es : List Entry} (h : Inv c es) :
    (c.cache.map Prod.fst).Perm (es.map Entry.key) := by
  have := h.idx.map Prod.fst
  simpa [view, Function.comp_def] using this

theorem Inv.length_eq {c : LRUCache} {es : List Entry} (h : Inv c es) :
    c.cache.length = es.length := by
  simpa using h.cache_keys.length_eq

theorem Inv.find_none_iff {c : LRUCache} {es : List Entry} (h : Inv c es) {k : Int} :
    find c.cache k = none ↔ k ∉ es.map Entry.key := by
  rw [find_eq_none_iff, h.cache_keys.mem_iff]

theorem Inv.find_some_iff {c : LRUCache} {es : List Entry} (h : Inv c es) {k : Int}
    {p : Ptr} : find c.cache k = some p ↔ ∃ e ∈ es, e.key = k ∧ e.ptr = p := by
  have hidx : c.cache.Perm (es.map fun e => (e.key, e.ptr)) := h.idx
  constructor
  · intro hf
    have := hidx.mem_iff.1 (mem_of_find hf)
    obtain ⟨e, he, hkp⟩ := List.mem_map.1 this
    simp only [Prod.mk.injEq] at hkp
    exact ⟨e, he, hkp.1, hkp.2⟩
  · rintro ⟨e, he, rfl, rfl⟩
    refine find_of_mem (h.cache_keys.nodup_iff.2 h.keys) ?_
    exact hidx.mem_iff.2 (List.mem_map.2 ⟨e, he, rfl⟩)

theorem Inv.brk_pos {c : LRUCache} {es : List Entry} (h : Inv c es) : c.brk ≠ 0 := by
  have : c.head < c.brk := h.links.bound c.head (by simp [chainOf, view])
  exact Nat.ne_of_gt (Nat.lt_of_le_of_lt (Nat.zero_le _) this)

/-! ## `get` and `put` on represented states -/

theorem get_miss {c : LRUCache} {k : Int} (hf : find c.cache k = none) :
    get c k = some (-1, c) := by
  simp [get, hf]

theorem get_hit {c : LRUCache} {es : List Entry} {k : Int} {p : Ptr}
    (h : Inv c es) (hf : find c.cache k = some p) :
    ∃ l1 e l2 c', es = l1 ++ e :: l2 ∧ e.key = k ∧ e.ptr = p ∧
      get c k = some (e.val, c') ∧ Inv c' (e :: (l1 ++ l2)) ∧
      c'.cache = c.cache ∧ c'.capacity = c.capacity ∧ c'.brk = c.brk := by
  obtain ⟨e, he, hk, hp⟩ := h.find_some_iff.1 hf
  obtain ⟨l1, l2, rfl⟩ := List.append_of_mem he
  obtain ⟨c', hc', hinv, hca, hcp, hb⟩ := moveToHead_inv h
  refine ⟨l1, e, l2, c', rfl, hk, hp, ?_, hinv, hca, hcp, hb⟩
  have hval := (hinv.data e (List.mem_cons_self _ _)).2
  cases hl : load c' e.ptr with
  | none => simp [view, hl] at hval
  | some n =>
    have hn : n.val = e.val := by simpa [view, hl] using hval
    simp [get, hf, ← hp, hc', hl, hn]

theorem setVal_inv {c : LRUCache} {l1 l2 : List Entry} {e : Entry} (v : Int)
    (h : Inv c (l1 ++ e :: l2)) :
    ∃ c', setVal c e.ptr v = some c' ∧ Inv c' (l1 ++ { e with val := v } :: l2) ∧
      c'.cache = c.cache ∧ c'.capacity = c.capacity ∧ c'.brk = c.brk := by
  have hmem : e ∈ l1 ++ e :: l2 := by simp
  have hxa : ((view c).key e.ptr).isSome := by
    rw [(h.data e hmem).1]
    rfl
  obtain ⟨c', hc', hv⟩ := setVal_view v hxa
  have hch : chainOf (view c') (l1 ++ { e with val := v } :: l2) =
      chainOf (view c) (l1 ++ e :: l2) := by
    rw [hv]
    simp [chainOf]
  refine ⟨c', hc', ⟨?_, ?_, ?_, ?_⟩, congrArg View.cache hv, congrArg View.capacity hv,
    congrArg View.brk hv⟩
  · rw [hch]
    refine h.links.frame ?_ ?_ ?_ ?_ <;> simp [hv]
  · intro e' he'
    have hnd : (l1.map Entry.ptr ++ e.ptr :: l2.map Entry.ptr).Nodup := by
      have := h.links.nodup
      simp only [chainOf, List.nodup_cons] at this
      have := (List.nodup_append.1 this.2).1
      simpa using this
    have hnot := not_mem_of_nodup_middle hnd
    rw [hv]
    simp only [List.mem_append, List.mem_cons] at he'
    have hother : e' ∈ l1 ∨ e' ∈ l2 → (view c).key e'.ptr = some e'.key ∧
        Function.update (view c).val e.ptr (some v) e'.ptr = some e'.val := by
      intro hm
      have hne : e'.ptr ≠ e.ptr := by
        intro heq
        apply hnot
        rw [← heq]
        rcases hm with hm | hm
        · exact List.mem_append_left _ (List.mem_map_of_mem _ hm)
        · exact List.mem_append_right _ (List.mem_map_of_mem _ hm)
      rw [Function.update_noteq hne]
      refine h.data e' ?_
      simp only [List.mem_append, List.mem_cons]
      tauto
    rcases he' with h1 | h1 | h1
    · exact hother (Or.inl h1)
    · subst h1
      exact ⟨(h.data e hmem).1, by simp⟩
    · exact hother (Or.inr h1)
  · rw [hv]
    simpa using h.idx
  · simpa using h.keys

theorem put_hit {c : LRUCache} {es : List Entry} {k : Int} {p : Ptr} (v : Int)
    (h : Inv c es) (hf : find c.cache k = some p) :
    ∃ l1 e l2 c', es = l1 ++ e :: l2 ∧ e.key = k ∧ e.ptr = p ∧
      put c k v = some c' ∧ Inv c' ({ e with val := v } :: (l1 ++ l2)) ∧
      c'.cache = c.cache ∧ c'.capacity = c.capacity ∧ c'.brk = c.brk := by
  obtain ⟨e, he, hk, hp⟩ := h.find_some_iff.1 hf
  obtain ⟨l1, l2, rfl⟩ := List.append_of_mem he
  obtain ⟨c1, hc1, hinv1, hca1, hcp1, hb1⟩ := setVal_inv v h
  obtain ⟨c2, hc2, hinv2, hca2, hcp2, hb2⟩ := moveToHead_inv hinv1
  refine ⟨l1, e, l2, c2, rfl, hk, hp, ?_, hinv2, hca2.trans hca1, hcp2.trans hcp1,
    hb2.trans hb1⟩
  have hc2' : moveToHead c1 e.ptr = some c2 := hc2
  simp [put, hf, ← hp, hc1, hc2']

theorem put_miss_eq {c : LRUCache} {k : Int} (v : Int) (hf : find c.cache k = none) :
    put c k v =
      (addNode { (alloc c k v).2 with cache := assign c.cache k c.brk } c.brk).bind fun c3 =>
        if sizeExceeds c3.cache.length c3.capacity then
          (popTail c3).bind fun r =>
            (load r.2 r.1).bind fun n => free { r.2 with cache := erase r.2.cache n.key } r.1
        else some c3 := by
  simp only [put, hf]
  rfl

/-- Lines 69-71: allocating the node of a new key, indexing it and linking it first. -/
theorem insert_inv {c : LRUCache} {es : List Entry} {k : Int} (v : Int)
    (h : Inv c es) (hf : find c.cache k = none) :
    ∃ c', addNode { (alloc c k v).2 with cache := assign c.cache k c.brk } c.brk = some c' ∧
      Inv c' (⟨c.brk, k, v⟩ :: es) ∧ c'.capacity = c.capacity ∧ c'.brk = c.brk + 1 := by
  have hv : view { (alloc c k v).2 with cache := assign c.cache k c.brk } =
      { view (alloc c k v).2 with cache := assign c.cache k c.brk } := rfl
  rw [alloc_view c k v h.brk_pos] at hv
  have hfresh : ∀ p ∈ chainOf (view c) es, p ≠ c.brk := fun p hp =>
    Nat.ne_of_lt (h.links.bound p hp)
  have hch : chainOf (view { (alloc c k v).2 with cache := assign c.cache k c.brk }) es =
      chainOf (view c) es := by
    rw [hv]
    rfl
  have hlinks : Links (view { (alloc c k v).2 with cache := assign c.cache k c.brk })
      (chainOf (view { (alloc c k v).2 with cache := assign c.cache k c.brk }) es) := by
    rw [hch]
    refine h.links.frame ?_ ?_ ?_ ?_
    · intro p hp
      rw [hv]
      exact Function.update_noteq (hfresh p hp) _ _
    · intro p hp
      rw [hv]
      exact Function.update_noteq (hfresh p hp) _ _
    · intro p hp
      rw [hv]
      exact Function.update_noteq (hfresh p hp) _ _
    · rw [hv]
      exact Nat.le_succ _
  obtain ⟨c', hc', hl, hk', hv', hca, hcp, hb, hh, ht⟩ :=
    addNode_links (x := c.brk) hlinks
      (by rw [hch]; exact fun hx => hfresh _ hx rfl)
      (by rw [hv]; simp)
      (by rw [hv]; exact Nat.lt_succ_self _)
  refine ⟨c', hc', ⟨?_, ?_, ?_, ?_⟩, ?_, ?_⟩
  · have : chainOf (view c') (⟨c.brk, k, v⟩ :: es) =
        (view { (alloc c k v).2 with cache := assign c.cache k c.brk }).head :: c.brk ::
          (es.map Entry.ptr ++
            [(view { (alloc c k v).2 with cache := assign c.cache k c.brk }).tail]) := by
      simp [chainOf, hh, ht]
    rw [this]
    exact hl
  · intro e he
    rw [hk', hv', hv]
    rcases List.mem_cons.1 he with h1 | h1
    · subst h1
      simp
    · have hne : e.ptr ≠ c.brk := hfresh e.ptr (by
        simp only [chainOf, List.mem_cons, List.mem_append, List.mem_map]
        exact Or.inr (Or.inl ⟨e, h1, rfl⟩))
      simp only [Function.update_noteq hne]
      exact h.data e h1
  · rw [hca, hv]
    show (assign c.cache k c.brk).Perm _
    rw [assign, erase_of_find_none hf]
    exact List.Perm.cons _ h.idx
  · simp only [List.map_cons, List.nodup_cons]
    exact ⟨h.find_none_iff.1 hf, h.keys⟩
  · rw [show c'.capacity = (view c').capacity from rfl, hcp, hv]
    rfl
  · rw [show c'.brk = (view c').brk from rfl, hb, hv]

/-- Lines 73-75: `popTail` returns the last entry, which is then erased from the index
and deleted. -/
theorem evict_inv {c : LRUCache} {init : List Entry} {x : Entry} (h : Inv c (init ++ [x])) :
    ∃ c1 r c', popTail c = some (x.ptr, c1) ∧ load c1 x.ptr = some r ∧ r.key = x.key ∧
      free { c1 with cache := erase c1.cache r.key } x.ptr = some c' ∧ Inv c' init ∧
      c'.capacity = c.capacity ∧ c'.brk = c.brk := by
  have hmem : x ∈ init ++ [x] := by simp
  have hb := h.links.bwd
  have hchain : chainOf (view c) (init ++ [x]) =
      ((view c).head :: init.map Entry.ptr) ++ [x.ptr, (view c).tail] := by
    simp [chainOf]
  rw [hchain] at hb
  have hprev : (view c).prev (view c).tail = some x.ptr := by
    have h2 := hb.right_of_append
    rw [List.chain'_pair] at h2
    exact h2
  obtain ⟨c1, hc1, hl1, hx1, hk1, hv1, hca1, hcp1, hb1, hh1, ht1⟩ :=
    @removeNode_inv c init [] x h
  simp only [List.append_nil] at hl1 hx1
  have hkey : (view c1).key x.ptr = some x.key := by
    rw [hk1]
    exact (h.data x hmem).1
  obtain ⟨t, ht⟩ : ∃ t, load c c.tail = some t ∧ t.prev = x.ptr := by
    cases hl : load c c.tail with
    | none => simp [view, hl] at hprev
    | some t => exact ⟨t, rfl, by simpa [view, hl] using hprev⟩
  obtain ⟨r, hr⟩ : ∃ r, load c1 x.ptr = some r ∧ r.key = x.key := by
    cases hl : load c1 x.ptr with
    | none => simp [view, hl] at hkey
    | some r => exact ⟨r, rfl, by simpa [view, hl] using hkey⟩
  have hv2 : view { c1 with cache := erase c1.cache r.key } =
      { view c1 with cache := erase c1.cache r.key } := rfl
  obtain ⟨c', hc', hv'⟩ := free_view (c := { c1 with cache := erase c1.cache r.key })
    (p := x.ptr) (by rw [hv2]; simp [hkey])
  rw [hv2] at hv'
  have hne : ∀ p ∈ chainOf (view c) init, p ≠ x.ptr := fun p hp e => hx1 (e ▸ hp)
  have hch : chainOf (view c') init = chainOf (view c) init := by
    rw [hv']
    simp [chainOf, hh1, ht1]
  refine ⟨c1, r, c', ?_, hr.1, hr.2, hc', ⟨?_, ?_, ?_, ?_⟩, ?_, ?_⟩
  · simp [popTail, ht.1, ht.2, hc1]
  · rw [hch]
    refine hl1.frame ?_ ?_ ?_ ?_
    · intro p hp
      rw [hv']
      exact Function.update_noteq (hne p hp) _ _
    · intro p hp
      rw [hv']
      exact Function.update_noteq (hne p hp) _ _
    · intro p hp
      rw [hv']
      exact Function.update_noteq (hne p hp) _ _
    · rw [hv']
  · intro e he
    have hne' : e.ptr ≠ x.ptr := hne e.ptr (by
      simp only [chainOf, List.mem_cons, List.mem_append, List.mem_map]
      exact Or.inr (Or.inl ⟨e, he, rfl⟩))
    rw [hv']
    simp only [Function.update_noteq hne', hk1, hv1]
    exact h.data e (List.mem_append_left _ he)
  · rw [hv']
    show (erase c1.cache r.key).Perm _
    have hc1c : c1.cache = c.cache := hca1
    have hidx : c.cache.Perm ((init ++ [x]).map fun e => (e.key, e.ptr)) := h.idx
    rw [hc1c, hr.2, erase]
    refine (hidx.filter _).trans ?_
    have hkeys := h.keys
    simp only [List.map_append, List.map_cons, List.map_nil] at hkeys
    have hnot : x.key ∉ init.map Entry.key := by
      have := List.disjoint_of_nodup_append hkeys
      exact fun hx => this hx (by simp)
    rw [List.map_append, List.filter_append]
    have h1 : (List.map (fun e => (e.key, e.ptr)) init).filter (fun e => decide (e.1 ≠ x.key)) =
        List.map (fun e => (e.key, e.ptr)) init := by
      refine List.filter_eq_self.2 fun a ha => ?_
      obtain ⟨e, he, rfl⟩ := List.mem_map.1 ha
      have : e.key ≠ x.key := fun heq => hnot (heq ▸ List.mem_map_of_mem _ he)
      simpa using this
    rw [h1]
    simp
  · have hkeys := h.keys
    simp only [List.map_append] at hkeys
    exact (List.nodup_append.1 hkeys).1
  · rw [show c'.capacity = (view c').capacity from rfl, hv']
    exact hcp1
  · rw [show c'.brk = (view c').brk from rfl, hv']
    exact hb1

/-- `put` of a key that is not in the index. -/
theorem put_new {c : LRUCache} {es : List Entry} {k : Int} (v : Int)
    (h : Inv c es) (hf : find c.cache k = none) :
    ∃ c', put c k v = some c' ∧ c'.capacity = c.capacity ∧ c'.brk = c.brk + 1 ∧
      Inv c' (if sizeExceeds (es.length + 1) c.capacity
        then (⟨c.brk, k, v⟩ :: es).dropLast else ⟨c.brk, k, v⟩ :: es) := by
  obtain ⟨c3, hc3, hinv3, hcp3, hb3⟩ := insert_inv v h hf
  have hlen : c3.cache.length = es.length + 1 := by
    rw [hinv3.length_eq]
    rfl
  rw [put_miss_eq v hf, hc3]
  simp only [Option.some_bind, hlen, hcp3]
  by_cases hex : sizeExceeds (es.length + 1) c.capacity = true
  · simp only [hex, if_true]
    obtain ⟨init, x, hix⟩ : ∃ init x, (⟨c.brk, k, v⟩ :: es : List Entry) = init ++ [x] := by
      rcases List.eq_nil_or_concat (⟨c.brk, k, v⟩ :: es : List Entry) with h0 | ⟨i, x, h0⟩
      · simp at h0
      · exact ⟨i, x, by simpa using h0⟩
    rw [hix] at hinv3 ⊢
    obtain ⟨c1, r, c', hpop, hload, hkey, hfree, hinv, hcp, hb⟩ := evict_inv hinv3
    refine ⟨c', ?_, hcp.trans hcp3, hb.trans hb3, by simpa using hinv⟩
    simp [hpop, hload, hfree]
  · simp only [hex]
    exact ⟨c3, rfl, hcp3, hb3, hinv3⟩

/-! ## Reading the list of a represented state -/

theorem length_le_of_nodup_bound {l : List Nat} {n : Nat} (hnd : l.Nodup)
    (hb : ∀ x ∈ l, x < n) : l.length ≤ n := by
  have hsub : l ⊆ List.range n := fun x hx => List.mem_range.2 (hb x hx)
  simpa using (List.subperm_of_subset hnd hsub).length_le

theorem walk_of_chain (c : LRUCache) :
    ∀ (es : List Entry) (fuel : Nat) (a : Ptr),
      (a :: (es.map Entry.ptr ++ [c.tail])).Chain' (fun a b => (view c).next a = some b) →
      (∀ e ∈ es, e.ptr ≠ c.tail ∧ (view c).key e.ptr = some e.key ∧
        (view c).val e.ptr = some e.val) →
      es.length < fuel →
      ∃ n, load c a = some n ∧ walk c fuel n.next = some es
  | [], fuel, a, hch, _, hfuel => by
    have hn : (view c).next a = some c.tail := by
      have h2 := hch
      simp only [List.map_nil, List.nil_append] at h2
      rw [List.chain'_pair] at h2
      exact h2
    cases hl : load c a with
    | none => simp [view, hl] at hn
    | some n =>
      have hnn : n.next = c.tail := by simpa [view, hl] using hn
      obtain ⟨fuel', rfl⟩ : ∃ f, fuel = f + 1 := ⟨fuel - 1, by simp at hfuel; omega⟩
      exact ⟨n, rfl, by simp [walk, hnn]⟩
  | e :: es, fuel, a, hch, hdata, hfuel => by
    simp only [List.map_cons, List.cons_append] at hch
    rw [List.chain'_cons] at hch
    cases hl : load c a with
    | none => simp [view, hl] at hch
    | some n =>
      have hnn : n.next = e.ptr := by simpa [view, hl] using hch.1
      obtain ⟨fuel', rfl⟩ : ∃ f, fuel = f + 1 := ⟨fuel - 1, by simp at hfuel; omega⟩
      obtain ⟨m, hm, hw⟩ := walk_of_chain c es fuel' e.ptr hch.2
        (fun e' he' => hdata e' (List.mem_cons_of_mem _ he'))
        (by simpa using hfuel)
      obtain ⟨hne, hk, hv⟩ := hdata e (List.mem_cons_self _ _)
      have hmk : m.key = e.key := by simpa [view, hm] using hk
      have hmv : m.val = e.val := by simpa [view, hm] using hv
      refine ⟨n, rfl, ?_⟩
      simp [walk, hnn, hne, hm, hw, hmk, hmv]

/-- Walking the list of a represented state yields exactly the represented entries. -/
theorem Inv.entries_eq {c : LRUCache} {es : List Entry} (h : Inv c es) :
    entries c = some es := by
  have hnd := h.links.nodup
  have hlen : es.length + 2 ≤ c.brk := by
    have := length_le_of_nodup_bound hnd h.links.bound
    simpa [chainOf, view] using this
  have htail : ∀ e ∈ es, e.ptr ≠ c.tail := by
    intro e he heq
    have hnd' : (es.map Entry.ptr ++ [c.tail]).Nodup := (List.nodup_cons.1 hnd).2
    exact List.disjoint_of_nodup_append hnd' (List.mem_map_of_mem _ he)
      (by simp [heq])
  obtain ⟨n, hn, hw⟩ := walk_of_chain c es c.brk c.head h.links.fwd
    (fun e he => ⟨htail e he, h.data e he⟩) (by omega)
  simp [entries, hn, hw]

theorem Inv.keys_eq {c : LRUCache} {es : List Entry} (h : Inv c es) :
    keys c = some (es.map Entry.key) := by
  simp [keys, h.entries_eq]

theorem Inv.contents_eq {c : LRUCache} {es : List Entry} (h : Inv c es) :
    contents c = some (es.map fun e => (e.key, e.val)) := by
  simp [contents, h.entries_eq]

/-! ## The constructor -/

theorem new_spec (cap : Int) :
    ∃ c, LRUCache.new cap = some c ∧ c.capacity = cap ∧ c.cache = [] ∧ c.head = 1 ∧
      c.tail = 2 ∧ c.brk = 3 ∧ load c 1 = some ⟨-1, -1, nullptr, 2⟩ ∧
      load c 2 = some ⟨-1, -1, 1, nullptr⟩ :=
  ⟨_, rfl, rfl, rfl, rfl, rfl, rfl, rfl, rfl⟩

theorem new_inv (cap : Int) :
    ∃ c, LRUCache.new cap = some c ∧ Inv c [] ∧ c.capacity = cap ∧ c.cache = [] := by
  obtain ⟨c, hc, hcap, hcache, hh, ht, hb, h1, h2⟩ := new_spec cap
  have hch : chainOf (view c) [] = [1, 2] := by
    simp [chainOf, view, hh, ht]
  refine ⟨c, hc, ⟨⟨?_, ?_, ?_, ?_, ?_⟩, ?_, ?_, ?_⟩, hcap, hcache⟩
  · rw [hch]
    decide
  · rw [hch, List.chain'_pair]
    simp [view, h1]
  · rw [hch, List.chain'_pair]
    simp [view, h2]
  · intro p hp
    rw [hch] at hp
    simp only [List.mem_cons, List.mem_singleton, List.not_mem_nil, or_false] at hp
    rcases hp with rfl | rfl
    · simp [view, h1]
    · simp [view, h2]
  · intro p hp
    rw [hch] at hp
    simp only [List.mem_cons, List.mem_singleton, List.not_mem_nil, or_false] at hp
    have : (view c).brk = 3 := hb
    rw [this]
    rcases hp with rfl | rfl <;> decide
  · simp
  · show c.cache.Perm _
    rw [hcache]
    exact List.Perm.refl _
  · simp

/-! ## Runs -/

/-- Accessing key `k` at time `clock` puts it in front of the keys that stay. -/
theorem recent_touch {last : Int → Nat} {clock : Nat} {ks rest : List Int} {k : Int}
    (hp : ks.Pairwise fun a b => last b < last a) (hs : ∀ a ∈ ks, last a < clock)
    (hsub : rest.Sublist ks) (hk : k ∉ rest) :
    ((k :: rest).Pairwise fun a b =>
        Function.update last k clock b < Function.update last k clock a) ∧
      ∀ a ∈ k :: rest, Function.update last k clock a < clock + 1 := by
  have hne : ∀ a ∈ rest, a ≠ k := fun a ha e => hk (e ▸ ha)
  refine ⟨List.pairwise_cons.2 ⟨fun b hb => ?_, ?_⟩, fun a ha => ?_⟩
  · rw [Function.update_noteq (hne b hb), Function.update_same]
    exact hs b (hsub.subset hb)
  · refine (hp.sublist hsub).imp_of_mem fun {a b} ha hb hab => ?_
    rw [Function.update_noteq (hne a ha), Function.update_noteq (hne b hb)]
    exact hab
  · rcases List.mem_cons.1 ha with h1 | h1
    · rw [h1, Function.update_same]
      exact Nat.lt_succ_self _
    · rw [Function.update_noteq (hne a h1)]
      exact Nat.lt_succ_of_lt (hs a (hsub.subset h1))

theorem RunInv.step_get_miss {cap : Int} {r : Run} {es : List Entry} (h : RunInv cap r es)
    {k : Int} (hf : find r.cache.cache k = none) :
    ∃ r', r.step (.get k) = some r' ∧ r'.cache = r.cache ∧ r'.outs = r.outs ++ [-1] ∧
      RunInv cap r' es := by
  refine ⟨⟨r.cache, r.clock + 1, r.last, r.outs ++ [-1]⟩, ?_, rfl, rfl, ?_⟩
  · simp [Run.step, get_miss hf, hf]
  · exact ⟨h.inv, h.cap_eq, h.size_le, h.recent,
      fun a ha => Nat.lt_succ_of_lt (h.stamped a ha)⟩

theorem RunInv.step_get_hit {cap : Int} {r : Run} {es : List Entry} (h : RunInv cap r es)
    {k : Int} {p : Ptr} (hf : find r.cache.cache k = some p) :
    ∃ l1 e l2 c' r', es = l1 ++ e :: l2 ∧ e.key = k ∧ get r.cache k = some (e.val, c') ∧
      r.step (.get k) = some r' ∧ r'.cache = c' ∧ r'.outs = r.outs ++ [e.val] ∧
      RunInv cap r' (e :: (l1 ++ l2)) := by
  obtain ⟨l1, e, l2, c', hes, hk, -, hget, hinv, -, hcp, -⟩ := get_hit h.inv hf
  subst hes
  have hsub : ((l1 ++ l2).map Entry.key).Sublist ((l1 ++ e :: l2).map Entry.key) :=
    (List.Sublist.append_left (List.sublist_cons_self e l2) l1).map _
  have hnot : k ∉ (l1 ++ l2).map Entry.key := by
    have := hinv.keys
    simp only [List.map_cons, List.nodup_cons] at this
    exact hk ▸ this.1
  obtain ⟨h1, h2⟩ := recent_touch h.recent h.stamped hsub hnot
  refine ⟨l1, e, l2, c', ⟨c', r.clock + 1, Function.update r.last k r.clock,
    r.outs ++ [e.val]⟩, rfl, hk, hget, by simp [Run.step, hget, hf], rfl, rfl, ?_⟩
  refine ⟨hinv, hcp.trans h.cap_eq, ?_, ?_, ?_⟩
  · have := h.size_le
    simp only [List.length_append, List.length_cons] at this ⊢
    omega
  · simpa [hk] using h1
  · simpa [hk] using h2

theorem RunInv.step_put_hit {cap : Int} {r : Run} {es : List Entry} (h : RunInv cap r es)
    {k : Int} {p : Ptr} (v : Int) (hf : find r.cache.cache k = some p) :
    ∃ l1 e l2 c' r', es = l1 ++ e :: l2 ∧ e.key = k ∧ put r.cache k v = some c' ∧
      r.step (.put k v) = some r' ∧ r'.cache = c' ∧ r'.outs = r.outs ∧
      RunInv cap r' ({ e with val := v } :: (l1 ++ l2)) := by
  obtain ⟨l1, e, l2, c', hes, hk, -, hput, hinv, -, hcp, -⟩ := put_hit v h.inv hf
  subst hes
  have hsub : ((l1 ++ l2).map Entry.key).Sublist ((l1 ++ e :: l2).map Entry.key) :=
    (List.Sublist.append_left (List.sublist_cons_self e l2) l1).map _
  have hnot : k ∉ (l1 ++ l2).map Entry.key := by
    have := hinv.keys
    simp only [List.map_cons, List.nodup_cons] at this
    exact hk ▸ this.1
  obtain ⟨h1, h2⟩ := recent_touch h.recent h.stamped hsub hnot
  refine ⟨l1, e, l2, c', ⟨c', r.clock + 1, Function.update r.last k r.clock, r.outs⟩,
    rfl, hk, hput, by simp [Run.step, hput], rfl, rfl, ?_⟩
  refine ⟨hinv, hcp.trans h.cap_eq, ?_, ?_, ?_⟩
  · have := h.size_le
    simp only [List.length_append, List.length_cons] at this ⊢
    omega
  · simpa [hk] using h1
  · simpa [hk] using h2

theorem RunInv.step_put_new {cap : Int} {r : Run} {es : List Entry} (h : RunInv cap r es)
    {k : Int} (v : Int) (hf : find r.cache.cache k = none) :
    ∃ c' r', put r.cache k v = some c' ∧
      r.step (.put k v) = some r' ∧ r'.cache = c' ∧ r'.outs = r.outs ∧
      r'.last = Function.update r.last k r.clock ∧
      RunInv cap r' (if sizeExceeds (es.length + 1) cap
        then (⟨r.cache.brk, k, v⟩ :: es).dropLast else ⟨r.cache.brk, k, v⟩ :: es) := by
  obtain ⟨c', hput, hcp, -, hinv⟩ := put_new v h.inv hf
  rw [h.cap_eq] at hinv
  have hnot : k ∉ es.map Entry.key := h.inv.find_none_iff.1 hf
  obtain ⟨h1, h2⟩ := recent_touch h.recent h.stamped
    (List.Sublist.refl _) hnot
  refine ⟨c', ⟨c', r.clock + 1, Function.update r.last k r.clock, r.outs⟩,
    hput, by simp [Run.step, hput], rfl, rfl, rfl, ?_⟩
  by_cases hex : sizeExceeds (es.length + 1) cap = true
  · rw [if_pos hex] at hinv ⊢
    have hsub : ((⟨r.cache.brk, k, v⟩ :: es : List Entry).dropLast.map Entry.key).Sublist
        (k :: es.map Entry.key) :=
      (List.dropLast_sublist (⟨r.cache.brk, k, v⟩ :: es : List Entry)).map Entry.key
    refine ⟨hinv, hcp.trans h.cap_eq, ?_, h1.sublist hsub, fun a ha => h2 a (hsub.subset ha)⟩
    have := h.size_le
    simpa using this
  · rw [if_neg hex] at hinv ⊢
    refine ⟨hinv, hcp.trans h.cap_eq, ?_, by simpa using h1, by simpa using h2⟩
    have : ¬ ((es.length + 1 : Nat) : Int) > cap % 2 ^ 64 := by
      simpa [sizeExceeds] using hex
    simp only [List.length_cons]
    omega

/-- Every call succeeds on a state satisfying the invariant and re-establishes it. -/
theorem RunInv.step {cap : Int} {r : Run} {es : List Entry} (h : RunInv cap r es)
    (op : Op) : ∃ r' es', r.step op = some r' ∧ RunInv cap r' es' := by
  cases op with
  | get k =>
    cases hf : find r.cache.cache k with
    | none =>
      obtain ⟨r', hr', -, -, hinv⟩ := h.step_get_miss hf
      exact ⟨r', es, hr', hinv⟩
    | some p =>
      obtain ⟨l1, e, l2, c', r', -, -, -, hr', -, -, hinv⟩ := h.step_get_hit hf
      exact ⟨r', _, hr', hinv⟩
  | put k v =>
    cases hf : find r.cache.cache k with
    | none =>
      obtain ⟨c', r', -, hr', -, -, -, hinv⟩ := h.step_put_new v hf
      exact ⟨r', _, hr', hinv⟩
    | some p =>
      obtain ⟨l1, e, l2, c', r', -, -, -, hr', -, -, hinv⟩ := h.step_put_hit v hf
      exact ⟨r', _, hr', hinv⟩

theorem RunInv.steps {cap : Int} :
    ∀ (ops : List Op) {r : Run} {es : List Entry}, RunInv cap r es →
      ∃ r' es', r.steps ops = some r' ∧ RunInv cap r' es'
  | [], r, es, h => ⟨r, es, rfl, h⟩
  | op :: ops, r, es, h => by
    obtain ⟨r1, es1, hr1, h1⟩ := h.step op
    obtain ⟨r2, es2, hr2, h2⟩ := RunInv.steps ops h1
    exact ⟨r2, es2, by simp [Run.steps, hr1, hr2], h2⟩

/-- Every call sequence on a freshly constructed cache runs to completion, without
undefined behaviour, and ends in a state satisfying the invariant. -/
theorem run_inv (cap : Int) (ops : List Op) :
    ∃ r es, run cap ops = some r ∧ RunInv cap r es := by
  obtain ⟨c, hc, hinv, hcap, -⟩ := new_inv cap
  have h0 : RunInv cap ⟨c, 1, fun _ => 0, []⟩ [] :=
    ⟨hinv, hcap, by simpa using Int.emod_nonneg cap (by norm_num), by simp, by simp⟩
  obtain ⟨r, es, hr, h⟩ := RunInv.steps ops h0
  exact ⟨r, es, by simp [run, hc, hr], h⟩

theorem RunInv.of_run {cap : Int} {ops : List Op} {r : Run} (hr : run cap ops = some r) :
    ∃ es, RunInv cap r es := by
  obtain ⟨r', es, hr', h⟩ := run_inv cap ops
  rw [hr] at hr'
  cases hr'
  exact ⟨es, h⟩

theorem eq_nil_or_snoc {α : Type} (l : List α) : l = [] ∨ ∃ init x, l = init ++ [x] := by
  rcases List.eq_nil_or_concat l with h | ⟨init, x, h⟩
  · exact Or.inl h
  · exact Or.inr ⟨init, x, by simpa using h⟩

theorem eq_of_run_map {α : Type} {cap : Int} {ops : List Op} (f : Run → α) {a : α}
    {r : Run} (hr : run cap ops = some r) (h : (run cap ops).map f = some a) : f r = a := by
  rw [hr] at h
  simpa using h

theorem Inv.mem_indexKeys {c : LRUCache} {es : List Entry} (h : Inv c es) {k : Int} :
    k ∈ indexKeys c ↔ k ∈ es.map Entry.key :=
  h.cache_keys.mem_iff

theorem Inv.indexKeys_length {c : LRUCache} {es : List Entry} (h : Inv c es) :
    (indexKeys c).length = es.length := by
  simpa [indexKeys] using h.length_eq

theorem filter_middle {l1 l2 : List Entry} {e : Entry}
    (hnd : ((l1 ++ e :: l2).map Entry.key).Nodup) :
    ((l1 ++ e :: l2).map fun x => (x.key, x.val)).filter (fun x => decide (x.1 ≠ e.key)) =
      (l1 ++ l2).map fun x => (x.key, x.val) := by
  have hnot : e.key ∉ l1.map Entry.key ++ l2.map Entry.key := by
    have : (l1.map Entry.key ++ e.key :: l2.map Entry.key).Nodup := by simpa using hnd
    exact not_mem_of_nodup_middle this
  have hkeep : ∀ l : List Entry, (∀ x ∈ l, x.key ≠ e.key) →
      (l.map fun x => (x.key, x.val)).filter (fun x => decide (x.1 ≠ e.key)) =
        l.map fun x => (x.key, x.val) := by
    intro l hl
    refine List.filter_eq_self.2 fun a ha => ?_
    obtain ⟨x, hx, rfl⟩ := List.mem_map.1 ha
    simpa using hl x hx
  have h1 : ∀ x ∈ l1, x.key ≠ e.key := fun x hx heq =>
    hnot (List.mem_append_left _ (heq ▸ List.mem_map_of_mem _ hx))
  have h2 : ∀ x ∈ l2, x.key ≠ e.key := fun x hx heq =>
    hnot (List.mem_append_right _ (heq ▸ List.mem_map_of_mem _ hx))
  rw [List.map_append, List.map_cons, List.filter_append, List.filter_cons, hkeep l1 h1,
    hkeep l2 h2]
  simp

/-- After `put(k, v)` on a state with room for at least one entry, the entry of `k`
is first in the list and holds `v`. -/
theorem put_front {c : LRUCache} {es : List Entry} (h : Inv c es)
    (hpos : 1 ≤ c.capacity % 2 ^ 64) (k v : Int) :
    ∃ c' p rest, put c k v = some c' ∧ Inv c' (⟨p, k, v⟩ :: rest) ∧
      c'.capacity = c.capacity := by
  cases hf : find c.cache k with
  | some p =>
    obtain ⟨l1, e, l2, c', -, hk, -, hput, hinv, -, hcp, -⟩ := put_hit v h hf
    exact ⟨c', e.ptr, l1 ++ l2, hput, by simpa [hk] using hinv, hcp⟩
  | none =>
    obtain ⟨c', hput, hcp, -, hinv⟩ := put_new v h hf
    by_cases hex : sizeExceeds (es.length + 1) c.capacity = true
    · rw [if_pos hex] at hinv
      rcases eq_nil_or_snoc es with h0 | ⟨init, x, h0⟩
      · subst h0
        have : ((0 + 1 : Nat) : Int) > c.capacity % 2 ^ 64 := by
          simpa [sizeExceeds] using hex
        omega
      · subst h0
        have hd : (⟨c.brk, k, v⟩ :: (init ++ [x]) : List Entry).dropLast =
            ⟨c.brk, k, v⟩ :: init := by
          rw [← List.cons_append, List.dropLast_concat]
        rw [hd] at hinv
        exact ⟨c', c.brk, init, hput, hinv, hcp⟩
    · rw [if_neg hex] at hinv
      exact ⟨c', c.brk, es, hput, hinv, hcp⟩

/-- A `get` of the key whose entry is first in the list hits and returns its value. -/
theorem get_front {c : LRUCache} {p : Ptr} {k v : Int} {rest : List Entry}
    (h : Inv c (⟨p, k, v⟩ :: rest)) :
    ∃ c', find c.cache k = some p ∧ get c k = some (v, c') := by
  have hf : find c.cache k = some p :=
    h.find_some_iff.2 ⟨⟨p, k, v⟩, List.mem_cons_self _ _, rfl, rfl⟩
  obtain ⟨l1, e, l2, c', hes, hk, -, hget, -, -, -, -⟩ := get_hit h hf
  have he : e ∈ (⟨p, k, v⟩ :: rest : List Entry) := by
    rw [hes]
    simp
  have heq : e = ⟨p, k, v⟩ :=
    List.inj_on_of_nodup_map h.keys he (List.mem_cons_self _ _) hk
  subst heq
  exact ⟨c', hf, hget⟩

/-! # The claims -/

/-- C1 (capacity bound): on a cache constructed with a positive capacity `cap`, every
sequence of `get`/`put` calls runs to completion and, after every call (that is, after
every prefix `ops.take n` of the sequence), the number of keys in the index is at most
`cap`. -/
theorem capacity_bound (cap : Int) (hcap : 0 < cap) (ops : List Op) (n : Nat) :
    ∃ r, run cap (ops.take n) = some r ∧ ((indexKeys r.cache).length : Int) ≤ cap := by
  obtain ⟨r, es, hr, h⟩ := run_inv cap (ops.take n)
  refine ⟨r, hr, ?_⟩
  rw [h.inv.indexKeys_length]
  have := h.size_le
  omega

/-- Witness for C1: the capacity-2 cache of `main` after its first four calls. -/
theorem capacity_bound_witness :
    (0 : Int) < 2 ∧
      ∃ r, run 2 (mainOps.take 4) = some r ∧ ((indexKeys r.cache).length : Int) ≤ 2 :=
  ⟨by decide, capacity_bound 2 (by decide) mainOps 4⟩

/-- C2 (eviction correctness): in a reachable state of a cache with capacity `cap ≥ 1`
whose index holds exactly `cap` keys, `put(k, v)` for a key `k` not in the index
succeeds and removes exactly one key `victim`: `victim` was resident, its most recent
access is older than that of every other resident key, the index afterwards holds `k`
and exactly the previously resident keys other than `victim`, and it again holds
`cap` keys. -/
theorem eviction_lru (cap : Int) (hcap : 1 ≤ cap) (ops : List Op) (r : Run)
    (hr : run cap ops = some r) (hfull : ((indexKeys r.cache).length : Int) = cap)
    (k v : Int) (hk : find r.cache.cache k = none) :
    ∃ c' victim, put r.cache k v = some c' ∧ victim ∈ indexKeys r.cache ∧
      (∀ k' ∈ indexKeys r.cache, k' ≠ victim → r.last victim < r.last k') ∧
      (∀ k', k' ∈ indexKeys c' ↔ k' = k ∨ (k' ∈ indexKeys r.cache ∧ k' ≠ victim)) ∧
      ((indexKeys c').length : Int) = cap := by
  obtain ⟨es, h⟩ := RunInv.of_run hr
  rw [h.inv.indexKeys_length] at hfull
  have hsz := h.size_le
  have hex : sizeExceeds (es.length + 1) cap = true := by
    simp only [sizeExceeds, decide_eq_true_eq]
    push_cast
    omega
  obtain ⟨c', r', hput, -, hrc, -, -, h'⟩ := h.step_put_new v hk
  rw [if_pos hex] at h'
  rcases eq_nil_or_snoc es with h0 | ⟨init, x, h0⟩
  · subst h0
    simp at hfull
    omega
  subst h0
  have hd : (⟨r.cache.brk, k, v⟩ :: (init ++ [x]) : List Entry).dropLast =
      ⟨r.cache.brk, k, v⟩ :: init := by
    rw [← List.cons_append, List.dropLast_concat]
  rw [hd] at h'
  have hinv' : Inv c' (⟨r.cache.brk, k, v⟩ :: init) := by
    have := h'.inv
    rwa [hrc] at this
  have hkeys : (init.map Entry.key ++ [x.key]).Nodup := by simpa using h.inv.keys
  have hxnot : x.key ∉ init.map Entry.key := fun hx =>
    List.disjoint_of_nodup_append hkeys hx (by simp)
  refine ⟨c', x.key, hput, ?_, ?_, ?_, ?_⟩
  · rw [h.inv.mem_indexKeys]
    simp
  · intro k' hk' hne
    rw [h.inv.mem_indexKeys] at hk'
    simp only [List.map_append, List.map_cons, List.map_nil, List.mem_append,
      List.mem_singleton] at hk'
    have hrec := h.recent
    simp only [List.map_append, List.map_cons, List.map_nil] at hrec
    rcases hk' with h1 | h1
    · exact (List.pairwise_append.1 hrec).2.2 k' h1 x.key (by simp)
    · exact absurd h1 hne
  · intro k'
    rw [hinv'.mem_indexKeys, h.inv.mem_indexKeys]
    simp only [List.map_cons, List.mem_cons, List.map_append, List.map_nil, List.mem_append,
      List.mem_singleton]
    constructor
    · rintro (h1 | h1)
      · exact Or.inl h1
      · exact Or.inr ⟨Or.inl h1, fun e => hxnot (e ▸ h1)⟩
    · rintro (h1 | ⟨h1 | h1, h2⟩)
      · exact Or.inl h1
      · exact Or.inr h1
      · exact absurd (by simpa using h1 : k' = x.key) h2
  · rw [hinv'.indexKeys_length, ← hfull]
    simp

/-- Witness for C2: the full capacity-2 cache of `main` just before `put(3, 3)`. -/
theorem eviction_lru_witness :
    ∃ r, run 2 (mainOps.take 3) = some r ∧ ((indexKeys r.cache).length : Int) = 2 ∧
      find r.cache.cache 3 = none ∧
      ∃ c' victim, put r.cache 3 3 = some c' ∧ victim ∈ indexKeys r.cache ∧
        (∀ k' ∈ indexKeys r.cache, k' ≠ victim → r.last victim < r.last k') ∧
        (∀ k', k' ∈ indexKeys c' ↔ k' = 3 ∨ (k' ∈ indexKeys r.cache ∧ k' ≠ victim)) ∧
        ((indexKeys c').length : Int) = 2 := by
  obtain ⟨r, -, hr, -⟩ := run_inv 2 (mainOps.take 3)
  have hfull : ((indexKeys r.cache).length : Int) = 2 :=
    eq_of_run_map (fun r => ((indexKeys r.cache).length : Int)) hr (by decide!)
  have hk : find r.cache.cache 3 = none :=
    eq_of_run_map (fun r => find r.cache.cache 3) hr (by decide!)
  exact ⟨r, hr, hfull, hk, eviction_lru 2 (by decide) (mainOps.take 3) r hr hfull 3 3 hk⟩

/-- C3 (recency ordering): after every sequence of `get`/`put` calls on a cache of
capacity `cap ≥ 1`, the keys read from the head sentinel's successor to the tail
sentinel's predecessor are pairwise distinct, are exactly the keys of the index, and are
sorted by strictly decreasing time of most recent access (a `put` of the key or a `get`
that hit it). -/
theorem recency_order (cap : Int) (_hcap : 1 ≤ cap) (ops : List Op) :
    ∃ r ks, run cap ops = some r ∧ keys r.cache = some ks ∧ ks.Nodup ∧
      (∀ k, k ∈ ks ↔ k ∈ indexKeys r.cache) ∧
      ks.Pairwise fun a b => r.last b < r.last a := by
  obtain ⟨r, es, hr, h⟩ := run_inv cap ops
  exact ⟨r, es.map Entry.key, hr, h.inv.keys_eq, h.inv.keys,
    fun k => h.inv.mem_indexKeys.symm, h.recent⟩

/-- Witness for C3: the program of `main` on its capacity-2 cache. -/
theorem recency_order_witness :
    (1 : Int) ≤ 2 ∧
      ∃ r ks, run 2 mainOps = some r ∧ keys r.cache = some ks ∧ ks.Nodup ∧
        (∀ k, k ∈ ks ↔ k ∈ indexKeys r.cache) ∧
        ks.Pairwise fun a b => r.last b < r.last a :=
  ⟨by decide, recency_order 2 (by decide) mainOps⟩

/-- C4 (get hit): in a reachable state, for a key `k` that the index maps to the node
at `p`, `get(k)` succeeds and returns the value stored in that node; afterwards the
list holds the pair of `k` first, followed by all other pairs in their previous order
with their previous values, and the index is unchanged. -/
theorem get_hit_spec (cap : Int) (ops : List Op) (r : Run) (hr : run cap ops = some r)
    (k : Int) (p : Ptr) (hk : find r.cache.cache k = some p) :
    ∃ n kvs c', load r.cache p = some n ∧ n.key = k ∧ contents r.cache = some kvs ∧
      (k, n.val) ∈ kvs ∧ get r.cache k = some (n.val, c') ∧
      contents c' = some ((k, n.val) :: kvs.filter fun x => decide (x.1 ≠ k)) ∧
      c'.cache = r.cache.cache := by
  obtain ⟨es, h⟩ := RunInv.of_run hr
  obtain ⟨l1, e, l2, c', hes, hek, hep, hget, hinv, hca, -, -⟩ := get_hit h.inv hk
  subst hes
  have hdata := h.inv.data e (by simp)
  cases hl : load r.cache e.ptr with
  | none => simp [view, hl] at hdata
  | some n =>
    have hnk : n.key = e.key := by simpa [view, hl] using hdata.1
    have hnv : n.val = e.val := by simpa [view, hl] using hdata.2
    refine ⟨n, _, c', hep ▸ hl, hnk.trans hek, h.inv.contents_eq, ?_, hnv ▸ hget, ?_, hca⟩
    · rw [hnv, ← hek]
      exact List.mem_map.2 ⟨e, by simp, rfl⟩
    · rw [hinv.contents_eq, ← hek, filter_middle h.inv.keys, hnv]
      rfl

/-- Witness for C4: `get(1)` in `main`, issued when the index holds keys 1 and 2. -/
theorem get_hit_spec_witness :
    ∃ r, run 2 (mainOps.take 2) = some r ∧ find r.cache.cache 1 = some 3 ∧
      ∃ n kvs c', load r.cache 3 = some n ∧ n.key = 1 ∧ contents r.cache = some kvs ∧
        (1, n.val) ∈ kvs ∧ get r.cache 1 = some (n.val, c') ∧
        contents c' = some ((1, n.val) :: kvs.filter fun x => decide (x.1 ≠ 1)) ∧
        c'.cache = r.cache.cache := by
  obtain ⟨r, -, hr, -⟩ := run_inv 2 (mainOps.take 2)
  have hk : find r.cache.cache 1 = some 3 :=
    eq_of_run_map (fun r => find r.cache.cache 1) hr (by decide!)
  exact ⟨r, hr, hk, get_hit_spec 2 (mainOps.take 2) r hr 1 3 hk⟩

/-- C5 (idempotent miss): in a reachable state, for a key `k` that is not in the
index, `get(k)` returns the miss indicator `-1` and leaves the whole state (index,
nodes, links) unchanged. -/
theorem get_miss_spec (cap : Int) (ops : List Op) (r : Run) (_hr : run cap ops = some r)
    (k : Int) (hk : find r.cache.cache k = none) :
    get r.cache k = some (-1, r.cache) :=
  get_miss hk

/-- Witness for C5: `get(2)` in `main`, issued after key 2 has been evicted. -/
theorem get_miss_spec_witness :
    ∃ r, run 2 (mainOps.take 4) = some r ∧ find r.cache.cache 2 = none ∧
      get r.cache 2 = some (-1, r.cache) := by
  obtain ⟨r, -, hr, -⟩ := run_inv 2 (mainOps.take 4)
  have hk : find r.cache.cache 2 = none :=
    eq_of_run_map (fun r => find r.cache.cache 2) hr (by decide!)
  exact ⟨r, hr, hk, get_miss_spec 2 (mainOps.take 4) r hr 2 hk⟩

/-- C6 (overwrite semantics): in a reachable state, for a key `k` that is in the
index, `put(k, v)` succeeds; afterwards the list holds the pair `(k, v)` first, followed
by all other pairs in their previous order with their previous values, and the index
is unchanged, so nothing is evicted and the index size stays the same, whether or not
the cache is full. -/
theorem put_overwrite (cap : Int) (ops : List Op) (r : Run) (hr : run cap ops = some r)
    (k : Int) (p : Ptr) (v : Int) (hk : find r.cache.cache k = some p) :
    ∃ kvs c', contents r.cache = some kvs ∧ put r.cache k v = some c' ∧
      contents c' = some ((k, v) :: kvs.filter fun x => decide (x.1 ≠ k)) ∧
      c'.cache = r.cache.cache ∧ (indexKeys c').length = (indexKeys r.cache).length := by
  obtain ⟨es, h⟩ := RunInv.of_run hr
  obtain ⟨l1, e, l2, c', hes, hek, -, hput, hinv, hca, -, -⟩ := put_hit v h.inv hk
  subst hes
  refine ⟨_, c', h.inv.contents_eq, hput, ?_, hca, by rw [indexKeys, indexKeys, hca]⟩
  rw [hinv.contents_eq, ← hek, filter_middle h.inv.keys]
  rfl

/-- Witness for C6: overwriting key 1 in the full capacity-2 cache of `main`. -/
theorem put_overwrite_witness :
    ∃ r, run 2 (mainOps.take 2) = some r ∧ find r.cache.cache 1 = some 3 ∧
      ∃ kvs c', contents r.cache = some kvs ∧ put r.cache 1 7 = some c' ∧
        contents c' = some ((1, 7) :: kvs.filter fun x => decide (x.1 ≠ 1)) ∧
        c'.cache = r.cache.cache ∧ (indexKeys c').length = (indexKeys r.cache).length := by
  obtain ⟨r, -, hr, -⟩ := run_inv 2 (mainOps.take 2)
  have hk : find r.cache.cache 1 = some 3 :=
    eq_of_run_map (fun r => find r.cache.cache 1) hr (by decide!)
  exact ⟨r, hr, hk, put_overwrite 2 (mainOps.take 2) r hr 1 3 7 hk⟩

/-- C7 (read-your-write): in a reachable state of a cache with capacity `cap ≥ 1`
(`cap` an `int`, so below `2 ^ 31`), for every key `k` and value `v`, `put(k, v)`
succeeds, leaves `k` in the index, and a `get(k)` issued right after it returns `v`. -/
theorem read_your_write (cap : Int) (hcap : 1 ≤ cap) (hint : cap < 2 ^ 31)
    (ops : List Op) (r : Run) (hr : run cap ops = some r) (k v : Int) :
    ∃ c' c'', put r.cache k v = some c' ∧ (find c'.cache k).isSome ∧
      get c' k = some (v, c'') := by
  obtain ⟨es, h⟩ := RunInv.of_run hr
  have hpos : 1 ≤ r.cache.capacity % 2 ^ 64 := by
    rw [h.cap_eq]
    omega
  obtain ⟨c', p, rest, hput, hinv, -⟩ := put_front h.inv hpos k v
  obtain ⟨c'', hf, hget⟩ := get_front hinv
  exact ⟨c', c'', hput, by simp [hf], hget⟩

/-- Witness for C7: `put(3, 3)` in `main`, which evicts key 2. -/
theorem read_your_write_witness :
    ∃ r, run 2 (mainOps.take 3) = some r ∧
      ∃ c' c'', put r.cache 3 3 = some c' ∧ (find c'.cache 3).isSome ∧
        get c' 3 = some (3, c'') := by
  obtain ⟨r, -, hr, -⟩ := run_inv 2 (mainOps.take 3)
  exact ⟨r, hr, read_your_write 2 (by decide) (by decide) (mainOps.take 3) r hr 3 3⟩

/-- C8, as claimed, fails: on a fresh cache of capacity 2, after `put(1, -1)` the call
`get(1)` hits and returns `-1`, and the call `get(2)` misses and returns `-1` as well;
so a miss is not always different from the result of a `get` that follows a `put`. -/
theorem miss_unambiguous_counterexample :
    (run 2 [.put 1 (-1), .get 1, .get 2]).map (fun r => r.outs) = some [-1, -1] ∧
    ¬ ∀ (cap : Int) (ops : List Op) (r : Run), 1 ≤ cap → cap < 2 ^ 31 →
        run cap ops = some r → ∀ k k' v : Int, find r.cache.cache k = none →
        ∀ (x y : Int) (c1 c2 c3 : LRUCache), get r.cache k = some (x, c1) →
          put r.cache k' v = some c2 → get c2 k' = some (y, c3) → x ≠ y := by
  refine ⟨by decide!, fun H => ?_⟩
  obtain ⟨r, -, hr, -⟩ := run_inv 2 []
  have hk : find r.cache.cache 2 = none :=
    eq_of_run_map (fun r => find r.cache.cache 2) hr (by decide!)
  obtain ⟨es, h⟩ := RunInv.of_run hr
  have hpos : 1 ≤ r.cache.capacity % 2 ^ 64 := by
    rw [h.cap_eq]
    decide
  obtain ⟨c2, p, rest, hput, hinv, -⟩ := put_front h.inv hpos 1 (-1)
  obtain ⟨c3, -, hget⟩ := get_front hinv
  exact H 2 [] r (by decide) (by decide) hr 2 1 (-1) hk (-1) (-1) r.cache c2 c3
    (get_miss hk) hput hget rfl

/-- C8, amended: in a reachable state of a cache with capacity `cap ≥ 1`, a `get(k)`
of a key that is not in the index returns `-1`, and for every key `k'` and every value
`v` other than `-1`, the `get(k')` issued after `put(k', v)` returns `v`, hence a
result different from that of the miss. -/
theorem miss_distinct_of_ne (cap : Int) (hcap : 1 ≤ cap) (hint : cap < 2 ^ 31)
    (ops : List Op) (r : Run) (hr : run cap ops = some r) (k k' v : Int)
    (hk : find r.cache.cache k = none) (hv : v ≠ -1) :
    ∃ (x y : Int) (c1 c2 c3 : LRUCache), get r.cache k = some (x, c1) ∧
      put r.cache k' v = some c2 ∧ get c2 k' = some (y, c3) ∧ x = -1 ∧ y = v ∧ x ≠ y := by
  obtain ⟨es, h⟩ := RunInv.of_run hr
  have hpos : 1 ≤ r.cache.capacity % 2 ^ 64 := by
    rw [h.cap_eq]
    omega
  obtain ⟨c2, p, rest, hput, hinv, -⟩ := put_front h.inv hpos k' v
  obtain ⟨c3, -, hget⟩ := get_front hinv
  exact ⟨-1, v, r.cache, c2, c3, get_miss hk, hput, hget, rfl, rfl, fun e => hv e.symm⟩

/-- Witness for amended C8: a miss on key 2 against `put(1, 5); get(1)` on a fresh
cache of capacity 2. -/
theorem miss_distinct_of_ne_witness :
    ∃ r, run 2 [] = some r ∧ find r.cache.cache 2 = none ∧
      ∃ (x y : Int) (c1 c2 c3 : LRUCache), get r.cache 2 = some (x, c1) ∧
        put r.cache 1 5 = some c2 ∧ get c2 1 = some (y, c3) ∧ x = -1 ∧ y = 5 ∧ x ≠ y := by
  obtain ⟨r, -, hr, -⟩ := run_inv 2 []
  have hk : find r.cache.cache 2 = none :=
    eq_of_run_map (fun r => find r.cache.cache 2) hr (by decide!)
  exact ⟨r, hr, hk,
    miss_distinct_of_ne 2 (by decide) (by decide) [] r hr 2 1 5 hk (by decide)⟩

/-- C9, as claimed, fails: constructing with capacity 0 reports no error and yields a
cache, on which the calls of `main` run and print five misses. -/
theorem invalid_capacity_counterexample :
    (LRUCache.new 0).isSome = true ∧
    (run 0 mainOps).map (fun r => r.outs) = some [-1, -1, -1, -1, -1] ∧
    ¬ ∀ cap : Int, cap ≤ 0 → LRUCache.new cap = none := by
  refine ⟨by decide!, by decide!, fun H => ?_⟩
  obtain ⟨c, hc, -⟩ := new_inv 0
  rw [H 0 (le_refl 0)] at hc
  cases hc

/-- C9, amended: for every capacity `cap ≤ 0` the constructor reports no error: it
yields a cache with that capacity and an empty index, and every sequence of `get`/`put`
calls on it runs to completion. -/
theorem invalid_capacity_accepted (cap : Int) (_hcap : cap ≤ 0) :
    ∃ c, LRUCache.new cap = some c ∧ c.capacity = cap ∧ c.cache = [] ∧
      ∀ ops : List Op, ∃ r, run cap ops = some r := by
  obtain ⟨c, hc, -, hcap', hcache⟩ := new_inv cap
  refine ⟨c, hc, hcap', hcache, fun ops => ?_⟩
  obtain ⟨r, -, hr, -⟩ := run_inv cap ops
  exact ⟨r, hr⟩

/-- Witness for amended C9: capacity `-3`. -/
theorem invalid_capacity_accepted_witness :
    (-3 : Int) ≤ 0 ∧
      ∃ c, LRUCache.new (-3) = some c ∧ c.capacity = -3 ∧ c.cache = [] ∧
        ∀ ops : List Op, ∃ r, run (-3) ops = some r :=
  ⟨by decide, invalid_capacity_accepted (-3) (by decide)⟩

/-- C10 (scenario): on a fresh cache of capacity 2 the calls of `main` yield the `get`
results 1, -1 (miss), -1 (miss), 3, 4 in this order; `put(3, 3)` turns the resident keys
from 1, 2 into 3, 1 (evicting 2), `get(2)` changes nothing, `put(4, 4)` turns them into
4, 3 (evicting 1), and the final index holds exactly the keys 3 and 4. -/
theorem main_scenario :
    (run 2 mainOps).map (fun r => r.outs) = some [1, -1, -1, 3, 4] ∧
      (run 2 (mainOps.take 3)).bind (fun r => keys r.cache) = some [1, 2] ∧
      (run 2 (mainOps.take 4)).bind (fun r => keys r.cache) = some [3, 1] ∧
      (run 2 (mainOps.take 5)).bind (fun r => keys r.cache) = some [3, 1] ∧
      (run 2 (mainOps.take 6)).bind (fun r => keys r.cache) = some [4, 3] ∧
      (run 2 mainOps).bind (fun r => keys r.cache) = some [4, 3] ∧
      (run 2 mainOps).map (fun r => decide ((indexKeys r.cache).Perm [3, 4])) = some true := by
  decide!

/-- C11 (per-key state machine): in a reachable state of a cache with capacity
`cap ≥ 1` (`cap` an `int`, so below `2 ^ 31`), every single call succeeds, and if it
makes a resident key `k` absent then the call is `put(k', v)` for a key `k' ≠ k` that
was not in the index while the index held exactly `cap` keys. Hence no `get`, no `put`
of a key already in the index and no `put` into an index with fewer than `cap` keys
removes a key. -/
theorem removal_only_by_eviction (cap : Int) (hcap : 1 ≤ cap) (hint : cap < 2 ^ 31)
    (ops : List Op) (r : Run) (hr : run cap ops = some r) (k : Int)
    (hk : k ∈ indexKeys r.cache) (op : Op) :
    ∃ r', r.step op = some r' ∧
      (k ∉ indexKeys r'.cache → ∃ k' v, op = .put k' v ∧ k' ≠ k ∧
        find r.cache.cache k' = none ∧ ((indexKeys r.cache).length : Int) = cap) := by
  obtain ⟨es, h⟩ := RunInv.of_run hr
  have hkes := h.inv.mem_indexKeys.1 hk
  cases op with
  | get k1 =>
    cases hf : find r.cache.cache k1 with
    | none =>
      obtain ⟨r', hr', hc, -, -⟩ := h.step_get_miss hf
      exact ⟨r', hr', fun hn => absurd (hc ▸ hk) hn⟩
    | some p =>
      obtain ⟨l1, e, l2, c', r', hes, -, -, hr', -, -, hinv⟩ := h.step_get_hit hf
      refine ⟨r', hr', fun hn => absurd ?_ hn⟩
      rw [hinv.inv.mem_indexKeys]
      rw [hes] at hkes
      simp only [List.map_append, List.map_cons, List.mem_append, List.mem_cons] at hkes ⊢
      tauto
  | put k1 v =>
    cases hf : find r.cache.cache k1 with
    | some p =>
      obtain ⟨l1, e, l2, c', r', hes, -, -, hr', -, -, hinv⟩ := h.step_put_hit v hf
      refine ⟨r', hr', fun hn => absurd ?_ hn⟩
      rw [hinv.inv.mem_indexKeys]
      rw [hes] at hkes
      simp only [List.map_append, List.map_cons, List.mem_append, List.mem_cons] at hkes ⊢
      tauto
    | none =>
      obtain ⟨c', r', -, hr', -, -, -, hinv⟩ := h.step_put_new v hf
      refine ⟨r', hr', fun hn => ?_⟩
      by_cases hex : sizeExceeds (es.length + 1) cap = true
      · refine ⟨k1, v, rfl, ?_, hf, ?_⟩
        · rintro rfl
          exact (h.inv.find_none_iff.1 hf) hkes
        · rw [h.inv.indexKeys_length]
          have h1 : ((es.length + 1 : Nat) : Int) > cap % 2 ^ 64 := by
            simpa [sizeExceeds] using hex
          have h2 := h.size_le
          push_cast at h1
          omega
      · rw [if_neg hex] at hinv
        refine absurd ?_ hn
        rw [hinv.inv.mem_indexKeys]
        simp only [List.map_cons, List.mem_cons]
        exact Or.inr hkes

/-- Witness for C11: the call `put(3, 3)` of `main`, seen from the resident key 2. -/
theorem removal_only_by_eviction_witness :
    ∃ r, run 2 (mainOps.take 3) = some r ∧ 2 ∈ indexKeys r.cache ∧
      ∃ r', r.step (.put 3 3) = some r' ∧
        (2 ∉ indexKeys r'.cache → ∃ k' v, Op.put 3 3 = .put k' v ∧ k' ≠ 2 ∧
          find r.cache.cache k' = none ∧ ((indexKeys r.cache).length : Int) = 2) := by
  obtain ⟨r, -, hr, -⟩ := run_inv 2 (mainOps.take 3)
  have hk : 2 ∈ indexKeys r.cache :=
    of_decide_eq_true
      (eq_of_run_map (fun r => decide (2 ∈ indexKeys r.cache)) hr (by decide!))
  exact ⟨r, hr, hk,
    removal_only_by_eviction 2 (by decide) (by decide) (mainOps.take 3) r hr 2 hk (.put 3 3)⟩

/-- C12 (index/list consistency): in every state reachable from construction (with any
capacity) by `get`/`put` calls, the non-sentinel nodes reached from the head sentinel
carry pairwise distinct keys, the index maps the key of each of them to the address of
that very node, every pair of the index is the key and address of one of these nodes,
and the index holds as many keys as the list holds non-sentinel nodes. -/
theorem index_list_consistent (cap : Int) (ops : List Op) :
    ∃ r es, run cap ops = some r ∧ entries r.cache = some es ∧
      (es.map Entry.key).Nodup ∧
      (∀ e ∈ es, find r.cache.cache e.key = some e.ptr ∧
        ∃ n, load r.cache e.ptr = some n ∧ n.key = e.key) ∧
      (∀ k p, find r.cache.cache k = some p → ∃ e ∈ es, e.key = k ∧ e.ptr = p) ∧
      (indexKeys r.cache).Nodup ∧ (indexKeys r.cache).length = es.length := by
  obtain ⟨r, es, hr, h⟩ := run_inv cap ops
  refine ⟨r, es, hr, h.inv.entries_eq, h.inv.keys, fun e he => ⟨?_, ?_⟩,
    fun k p hf => h.inv.find_some_iff.1 hf, h.inv.cache_keys.nodup_iff.2 h.inv.keys,
    h.inv.indexKeys_length⟩
  · exact h.inv.find_some_iff.2 ⟨e, he, rfl, rfl⟩
  · have hd := (h.inv.data e he).1
    cases hl : load r.cache e.ptr with
    | none => simp [view, hl] at hd
    | some n => exact ⟨n, rfl, by simpa [view, hl] using hd⟩

/-- C13 (insertion without overflow): in a reachable state of a cache with positive
capacity `cap` (`cap` an `int`, so below `2 ^ 31`) whose index holds fewer than `cap`
keys, `put(k, v)` for a key `k` that is not in the index succeeds; afterwards the list
holds `(k, v)` first, followed by all previous pairs in their previous order, the index
holds one key more, namely `k` and every previously resident key, so nothing is
evicted. -/
theorem insert_without_overflow (cap : Int) (hcap : 0 < cap) (hint : cap < 2 ^ 31)
    (ops : List Op) (r : Run) (hr : run cap ops = some r)
    (hroom : ((indexKeys r.cache).length : Int) < cap) (k v : Int)
    (hk : find r.cache.cache k = none) :
    ∃ kvs c', contents r.cache = some kvs ∧ put r.cache k v = some c' ∧
      contents c' = some ((k, v) :: kvs) ∧
      (indexKeys c').length = (indexKeys r.cache).length + 1 ∧
      (∀ k', k' ∈ indexKeys c' ↔ k' = k ∨ k' ∈ indexKeys r.cache) := by
  obtain ⟨es, h⟩ := RunInv.of_run hr
  rw [h.inv.indexKeys_length] at hroom
  obtain ⟨c', hput, -, -, hinv⟩ := put_new v h.inv hk
  have hex : ¬ sizeExceeds (es.length + 1) r.cache.capacity = true := by
    rw [h.cap_eq]
    simp only [sizeExceeds, decide_eq_true_eq]
    push_cast
    omega
  rw [if_neg hex] at hinv
  refine ⟨_, c', h.inv.contents_eq, hput, ?_, ?_, fun k' => ?_⟩
  · rw [hinv.contents_eq]
    rfl
  · rw [hinv.indexKeys_length, h.inv.indexKeys_length]
    rfl
  · rw [hinv.mem_indexKeys, h.inv.mem_indexKeys]
    simp

/-- Witness for C13: `put(2, 2)` in `main`, issued when the index holds only key 1. -/
theorem insert_without_overflow_witness :
    ∃ r, run 2 (mainOps.take 1) = some r ∧ ((indexKeys r.cache).length : Int) < 2 ∧
      find r.cache.cache 2 = none ∧
      ∃ kvs c', contents r.cache = some kvs ∧ put r.cache 2 2 = some c' ∧
        contents c' = some ((2, 2) :: kvs) ∧
        (indexKeys c').length = (indexKeys r.cache).length + 1 ∧
        (∀ k', k' ∈ indexKeys c' ↔ k' = 2 ∨ k' ∈ indexKeys r.cache) := by
  obtain ⟨r, -, hr, -⟩ := run_inv 2 (mainOps.take 1)
  have hroom : ((indexKeys r.cache).length : Int) < 2 :=
    of_decide_eq_true
      (eq_of_run_map (fun r => decide (((indexKeys r.cache).length : Int) < 2)) hr
        (by decide!))
  have hk : find r.cache.cache 2 = none :=
    eq_of_run_map (fun r => find r.cache.cache 2) hr (by decide!)
  exact ⟨r, hr, hroom, hk,
    insert_without_overflow 2 (by decide) (by decide) (mainOps.take 1) r hr hroom 2 2 hk⟩

/-! ## The sentinel pointers are never reassigned -/

theorem setNext_sentinels {c c' : LRUCache} {p q : Ptr} (h : setNext c p q = some c') :
    c'.head = c.head ∧ c'.tail = c.tail := by
  simp only [setNext, Option.map_eq_some'] at h
  obtain ⟨n, -, rfl⟩ := h
  exact ⟨rfl, rfl⟩

theorem setPrev_sentinels {c c' : LRUCache} {p q : Ptr} (h : setPrev c p q = some c') :
    c'.head = c.head ∧ c'.tail = c.tail := by
  simp only [setPrev, Option.map_eq_some'] at h
  obtain ⟨n, -, rfl⟩ := h
  exact ⟨rfl, rfl⟩

theorem setVal_sentinels {c c' : LRUCache} {p : Ptr} {v : Int}
    (h : setVal c p v = some c') : c'.head = c.head ∧ c'.tail = c.tail := by
  simp only [setVal, Option.map_eq_some'] at h
  obtain ⟨n, -, rfl⟩ := h
  exact ⟨rfl, rfl⟩

theorem free_sentinels {c c' : LRUCache} {p : Ptr} (h : free c p = some c') :
    c'.head = c.head ∧ c'.tail = c.tail := by
  simp only [free, Option.map_eq_some'] at h
  obtain ⟨n, -, rfl⟩ := h
  exact ⟨rfl, rfl⟩

theorem removeNode_sentinels {c c' : LRUCache} {x : Ptr} (h : removeNode c x = some c') :
    c'.head = c.head ∧ c'.tail = c.tail := by
  simp only [removeNode, Option.bind_eq_bind, Option.bind_eq_some] at h
  obtain ⟨n, -, c1, h1, h2⟩ := h
  have e1 := setNext_sentinels h1
  have e2 := setPrev_sentinels h2
  exact ⟨e2.1.trans e1.1, e2.2.trans e1.2⟩

theorem addNode_sentinels {c c' : LRUCache} {x : Ptr} (h : addNode c x = some c') :
    c'.head = c.head ∧ c'.tail = c.tail := by
  simp only [addNode, Option.bind_eq_bind, Option.bind_eq_some] at h
  obtain ⟨c1, h1, n1, -, c2, h2, n2, -, c3, h3, h4⟩ := h
  have e1 := setPrev_sentinels h1
  have e2 := setNext_sentinels h2
  have e3 := setPrev_sentinels h3
  have e4 := setNext_sentinels h4
  exact ⟨e4.1.trans (e3.1.trans (e2.1.trans e1.1)), e4.2.trans (e3.2.trans (e2.2.trans e1.2))⟩

theorem moveToHead_sentinels {c c' : LRUCache} {x : Ptr} (h : moveToHead c x = some c') :
    c'.head = c.head ∧ c'.tail = c.tail := by
  simp only [moveToHead, Option.bind_eq_bind, Option.bind_eq_some] at h
  obtain ⟨c1, h1, h2⟩ := h
  have e1 := removeNode_sentinels h1
  have e2 := addNode_sentinels h2
  exact ⟨e2.1.trans e1.1, e2.2.trans e1.2⟩

theorem popTail_sentinels {c c' : LRUCache} {x : Ptr} (h : popTail c = some (x, c')) :
    c'.head = c.head ∧ c'.tail = c.tail := by
  simp only [popTail, Option.bind_eq_bind, Option.bind_eq_some, Option.pure_def,
    Option.some.injEq, Prod.mk.injEq] at h
  obtain ⟨t, -, c1, h1, -, rfl⟩ := h
  exact removeNode_sentinels h1

theorem get_sentinels {c c' : LRUCache} {k v : Int} (h : get c k = some (v, c')) :
    c'.head = c.head ∧ c'.tail = c.tail := by
  unfold get at h
  cases hf : find c.cache k with
  | none =>
    simp only [hf, Option.some.injEq, Prod.mk.injEq] at h
    rw [← h.2]
    exact ⟨rfl, rfl⟩
  | some p =>
    simp only [hf, Option.bind_eq_bind, Option.bind_eq_some, Option.pure_def,
      Option.some.injEq, Prod.mk.injEq] at h
    obtain ⟨c1, h1, n, -, -, rfl⟩ := h
    exact moveToHead_sentinels h1

theorem put_sentinels {c c' : LRUCache} {k v : Int} (h : put c k v = some c') :
    c'.head = c.head ∧ c'.tail = c.tail := by
  cases hf : find c.cache k with
  | some p =>
    simp only [put, hf, Option.bind_eq_bind, Option.bind_eq_some] at h
    obtain ⟨c1, h1, h2⟩ := h
    have e1 := setVal_sentinels h1
    have e2 := moveToHead_sentinels h2
    exact ⟨e2.1.trans e1.1, e2.2.trans e1.2⟩
  | none =>
    rw [put_miss_eq v hf, Option.bind_eq_some] at h
    obtain ⟨c3, h3, h4⟩ := h
    have e3 := addNode_sentinels h3
    have e3' : c3.head = c.head ∧ c3.tail = c.tail := e3
    by_cases hex : sizeExceeds c3.cache.length c3.capacity = true
    · rw [if_pos hex] at h4
      simp only [Option.bind_eq_some] at h4
      obtain ⟨⟨x, c4⟩, h5, n, -, h6⟩ := h4
      have e5 := popTail_sentinels h5
      have e6 := free_sentinels h6
      exact ⟨e6.1.trans (e5.1.trans e3'.1), e6.2.trans (e5.2.trans e3'.2)⟩
    · rw [if_neg hex] at h4
      cases h4
      exact e3'

theorem step_sentinels {r r' : Run} {op : Op} (h : r.step op = some r') :
    r'.cache.head = r.cache.head ∧ r'.cache.tail = r.cache.tail := by
  cases op with
  | get k =>
    simp only [Run.step, Option.map_eq_some'] at h
    obtain ⟨⟨v, c⟩, hg, rfl⟩ := h
    exact get_sentinels hg
  | put k v =>
    simp only [Run.step, Option.map_eq_some'] at h
    obtain ⟨c, hp, rfl⟩ := h
    exact put_sentinels hp

theorem steps_sentinels :
    ∀ (ops : List Op) {r r' : Run}, r.steps ops = some r' →
      r'.cache.head = r.cache.head ∧ r'.cache.tail = r.cache.tail
  | [], r, r', h => by
    simp only [Run.steps, Option.some.injEq] at h
    rw [h]
    exact ⟨rfl, rfl⟩
  | op :: ops, r, r', h => by
    simp only [Run.steps, Option.bind_eq_some] at h
    obtain ⟨r1, h1, h2⟩ := h
    have e1 := step_sentinels h1
    have e2 := steps_sentinels ops h2
    exact ⟨e2.1.trans e1.1, e2.2.trans e1.2⟩

/-- In every reachable state `head` and `tail` still point to the two nodes the
constructor allocated. -/
theorem run_sentinels {cap : Int} {ops : List Op} {r : Run} (hr : run cap ops = some r) :
    r.cache.head = 1 ∧ r.cache.tail = 2 := by
  obtain ⟨c, hc, -, -, hh, ht, -⟩ := new_spec cap
  simp only [run, hc, Option.some_bind] at hr
  have := steps_sentinels ops hr
  exact ⟨this.1.trans hh, this.2.trans ht⟩

/-! ## Walking a doubly linked path in both directions -/

theorem walkNext_of_chain (c : LRUCache) :
    ∀ (L : List Ptr) (fuel : Nat) (a : Ptr),
      (a :: (L ++ [c.tail])).Chain' (fun a b => (view c).next a = some b) →
      (∀ p ∈ a :: L, p ≠ c.tail) → L.length + 1 < fuel →
      walkNext c fuel a = some (a :: (L ++ [c.tail]))
  | [], fuel, a, hch, hne, hfuel => by
    have hn : (view c).next a = some c.tail := by
      have h2 := hch
      simp only [List.nil_append] at h2
      rw [List.chain'_pair] at h2
      exact h2
    have ha : a ≠ c.tail := hne a (List.mem_cons_self _ _)
    obtain ⟨f, rfl⟩ : ∃ f, fuel = f + 2 := ⟨fuel - 2, by simp at hfuel; omega⟩
    cases hl : load c a with
    | none => simp [view, hl] at hn
    | some n =>
      have hnn : n.next = c.tail := by simpa [view, hl] using hn
      simp [walkNext, ha, hl, hnn]
  | b :: L, fuel, a, hch, hne, hfuel => by
    simp only [List.cons_append] at hch
    rw [List.chain'_cons] at hch
    have ha : a ≠ c.tail := hne a (List.mem_cons_self _ _)
    obtain ⟨f, rfl⟩ : ∃ f, fuel = f + 1 := ⟨fuel - 1, by simp at hfuel; omega⟩
    have ih := walkNext_of_chain c L f b hch.2
      (fun p hp => hne p (List.mem_cons_of_mem _ hp)) (by simpa using hfuel)
    cases hl : load c a with
    | none => simp [view, hl] at hch
    | some n =>
      have hnn : n.next = b := by simpa [view, hl] using hch.1
      simp [walkNext, ha, hl, hnn, ih]

theorem walkPrev_of_chain (c : LRUCache) (L : List Ptr) :
    ∀ (fuel : Nat) (a : Ptr),
      ((c.head :: L) ++ [a]).Chain' (fun x y => (view c).prev y = some x) →
      (∀ p ∈ L ++ [a], p ≠ c.head) → L.length + 1 < fuel →
      walkPrev c fuel a = some (a :: (L.reverse ++ [c.head])) := by
  induction L using List.reverseRecOn with
  | nil =>
    intro fuel a hch hne hfuel
    have hp : (view c).prev a = some c.head := by
      have h2 := hch
      simp only [List.cons_append, List.nil_append] at h2
      rw [List.chain'_pair] at h2
      exact h2
    have ha : a ≠ c.head := hne a (by simp)
    obtain ⟨f, rfl⟩ : ∃ f, fuel = f + 2 := ⟨fuel - 2, by simp at hfuel; omega⟩
    cases hl : load c a with
    | none => simp [view, hl] at hp
    | some n =>
      have hnp : n.prev = c.head := by simpa [view, hl] using hp
      simp [walkPrev, ha, hl, hnp]
  | append_singleton L b ih =>
    intro fuel a hch hne hfuel
    have hch' : (((c.head :: L) ++ [b]) ++ [a]).Chain'
        (fun x y => (view c).prev y = some x) := by
      simpa using hch
    have hp : (view c).prev a = some b := by
      have h2 : ((c.head :: L) ++ [b, a]).Chain' (fun x y => (view c).prev y = some x) := by
        simpa using hch
      have h3 := h2.right_of_append
      rw [List.chain'_pair] at h3
      exact h3
    have ha : a ≠ c.head := hne a (by simp)
    obtain ⟨f, rfl⟩ : ∃ f, fuel = f + 1 := ⟨fuel - 1, by simp at hfuel; omega⟩
    have ih' := ih f b hch'.left_of_append
      (fun p hp' => hne p (List.mem_append_left _ hp')) (by simpa using hfuel)
    cases hl : load c a with
    | none => simp [view, hl] at hp
    | some n =>
      have hnp : n.prev = b := by simpa [view, hl] using hp
      simp [walkPrev, ha, hl, hnp, ih']

theorem Links.length_le {c : LRUCache} {es : List Entry}
    (h : Links (view c) (chainOf (view c) es)) : es.length + 2 ≤ c.brk := by
  have := length_le_of_nodup_bound h.nodup h.bound
  simpa [chainOf, view] using this

/-- Following `next` from the head sentinel visits exactly the full list. -/
theorem Links.forward_eq {c : LRUCache} {es : List Entry}
    (h : Links (view c) (chainOf (view c) es)) :
    forward c = some (chainOf (view c) es) := by
  have hlen := h.length_le
  have hnd : (c.head :: (es.map Entry.ptr ++ [c.tail])).Nodup := h.nodup
  have hne : ∀ p ∈ c.head :: es.map Entry.ptr, p ≠ c.tail := by
    intro p hp heq
    have hnd' : ((c.head :: es.map Entry.ptr) ++ [c.tail]).Nodup := by simpa using hnd
    exact List.disjoint_of_nodup_append hnd' hp (by simp [heq])
  exact walkNext_of_chain c (es.map Entry.ptr) c.brk c.head h.fwd hne (by simpa using hlen)

/-- Following `prev` from the tail sentinel visits the full list in reverse. -/
theorem Links.backward_eq {c : LRUCache} {es : List Entry}
    (h : Links (view c) (chainOf (view c) es)) :
    backward c = some (chainOf (view c) es).reverse := by
  have hlen := h.length_le
  have hnd : (c.head :: (es.map Entry.ptr ++ [c.tail])).Nodup := h.nodup
  have hne : ∀ p ∈ es.map Entry.ptr ++ [c.tail], p ≠ c.head := by
    intro p hp heq
    exact (List.nodup_cons.1 hnd).1 (heq ▸ hp)
  have hb : ((c.head :: es.map Entry.ptr) ++ [c.tail]).Chain'
      (fun x y => (view c).prev y = some x) := by
    simpa [chainOf] using h.bwd
  have := walkPrev_of_chain c (es.map Entry.ptr) c.brk c.tail hb hne (by simpa using hlen)
  rw [backward, this]
  simp [chainOf, view]

theorem chain_next_prev {α : Type} {N P : α → α → Prop} :
    ∀ {L : List α}, L.Chain' N → L.Chain' P → ∀ p ∈ L.dropLast, ∃ q ∈ L, N p q ∧ P p q
  | [], _, _, p, hp => by simp at hp
  | [_], _, _, p, hp => by simp at hp
  | a :: b :: l, hN, hP, p, hp => by
    rw [List.chain'_cons] at hN hP
    simp only [List.dropLast_cons₂, List.mem_cons] at hp
    rcases hp with rfl | hp
    · exact ⟨b, by simp, hN.1, hP.1⟩
    · obtain ⟨q, hq, h1, h2⟩ := chain_next_prev hN.2 hP.2 p hp
      exact ⟨q, List.mem_cons_of_mem _ hq, h1, h2⟩

/-- C14 (sentinels are never evicted): in every state reachable from construction
(with any capacity) by `get`/`put` calls, `head` and `tail` are still the two nodes of
the constructor, the walk along `next` from `head` ends at `tail` and the walk along
`prev` from `tail` ends at `head`, with exactly the entries in between. Moreover, for
every `put(k, v)` of a key not in the index, in the state `c3` reached after
`addNode(newNode)` (where line 72 decides whether to call `popTail`) the list holds at
least one entry, `popTail` returns the last of them, which is neither sentinel, and
this is the node whose key is erased and which is deleted when the call is made. -/
theorem sentinels_never_evicted (cap : Int) (ops : List Op) :
    ∃ r es, run cap ops = some r ∧ r.cache.head = 1 ∧ r.cache.tail = 2 ∧
      entries r.cache = some es ∧
      forward r.cache = some (r.cache.head :: (es.map Entry.ptr ++ [r.cache.tail])) ∧
      backward r.cache =
        some (r.cache.head :: (es.map Entry.ptr ++ [r.cache.tail])).reverse ∧
      ∀ k v, find r.cache.cache k = none →
        ∃ c3 es3 x c4,
          addNode { (alloc r.cache k v).2 with cache := assign r.cache.cache k r.cache.brk }
            r.cache.brk = some c3 ∧
          entries c3 = some es3 ∧ es3.getLast? = some x ∧
          popTail c3 = some (x.ptr, c4) ∧ x.ptr ≠ c3.head ∧ x.ptr ≠ c3.tail ∧
          (∃ n, load c4 x.ptr = some n ∧ n.key = x.key) ∧
          put r.cache k v =
            if sizeExceeds c3.cache.length c3.capacity
            then free { c4 with cache := erase c4.cache x.key } x.ptr
            else some c3 := by
  obtain ⟨r, es, hr, h⟩ := run_inv cap ops
  obtain ⟨hh, ht⟩ := run_sentinels hr
  refine ⟨r, es, hr, hh, ht, h.inv.entries_eq, h.inv.links.forward_eq,
    h.inv.links.backward_eq, fun k v hf => ?_⟩
  obtain ⟨c3, hc3, hinv3, -, -⟩ := insert_inv v h.inv hf
  obtain ⟨init, x, hix⟩ : ∃ init x, (⟨r.cache.brk, k, v⟩ :: es : List Entry) = init ++ [x] := by
    rcases eq_nil_or_snoc (⟨r.cache.brk, k, v⟩ :: es : List Entry) with h0 | h0
    · simp at h0
    · exact h0
  rw [hix] at hinv3
  obtain ⟨c4, n, c', hpop, hload, hkey, hfree, -, -, -⟩ := evict_inv hinv3
  have hnd : (c3.head :: ((init ++ [x]).map Entry.ptr ++ [c3.tail])).Nodup := hinv3.links.nodup
  have hxh : x.ptr ≠ c3.head := by
    intro heq
    refine (List.nodup_cons.1 hnd).1 ?_
    rw [← heq]
    simp
  have hxt : x.ptr ≠ c3.tail := by
    intro heq
    refine List.disjoint_of_nodup_append (List.nodup_cons.1 hnd).2 (a := x.ptr) ?_ ?_
    · simp
    · simp [heq]
  refine ⟨c3, init ++ [x], x, c4, hc3, hinv3.entries_eq, by simp, hpop, hxh, hxt,
    ⟨n, hload, hkey⟩, ?_⟩
  rw [put_miss_eq v hf, hc3, Option.some_bind]
  by_cases hex : sizeExceeds c3.cache.length c3.capacity = true
  · rw [if_pos hex, if_pos hex]
    simp [hpop, hload, hkey]
  · rw [if_neg hex, if_neg hex]

/-- C17 (doubly linked well-formedness): in every state reachable from construction
(with any capacity) by `get`/`put` calls, following `next` from the head sentinel
reaches the tail sentinel after finitely many steps without visiting a node twice; for
every node `p` on that path other than the tail, the node `p->next` exists and its
`prev` is `p`; and following `prev` from the tail sentinel visits the same nodes in
reverse order. -/
theorem doubly_linked (cap : Int) (ops : List Op) :
    ∃ r L, run cap ops = some r ∧ forward r.cache = some L ∧ L.Nodup ∧
      L.head? = some r.cache.head ∧ L.getLast? = some r.cache.tail ∧
      (∀ p ∈ L, p ≠ r.cache.tail →
        ∃ n m, load r.cache p = some n ∧ load r.cache n.next = some m ∧ m.prev = p) ∧
      backward r.cache = some L.reverse := by
  obtain ⟨r, es, hr, h⟩ := run_inv cap ops
  have hl := h.inv.links
  have hL : chainOf (view r.cache) es = (r.cache.head :: es.map Entry.ptr) ++ [r.cache.tail] := by
    simp [chainOf, view]
  refine ⟨r, chainOf (view r.cache) es, hr, hl.forward_eq, hl.nodup, by simp [chainOf, view],
    ?_, fun p hp hne => ?_, hl.backward_eq⟩
  · rw [hL, List.getLast?_append]
    simp
  · have hp' : p ∈ (chainOf (view r.cache) es).dropLast := by
      rw [hL, List.dropLast_concat]
      rw [hL] at hp
      rcases List.mem_append.1 hp with h1 | h1
      · exact h1
      · exact absurd (List.mem_singleton.1 h1) hne
    obtain ⟨q, -, hN, hP⟩ := chain_next_prev hl.fwd hl.bwd p hp'
    cases hlp : load r.cache p with
    | none => simp [view, hlp] at hN
    | some n =>
      have hnq : n.next = q := by simpa [view, hlp] using hN
      cases hlq : load r.cache q with
      | none => simp [view, hlq] at hP
      | some m =>
        have hmp : m.prev = p := by simpa [view, hlq] using hP
        exact ⟨n, m, rfl, by rw [hnq, hlq], hmp⟩

/-! ## `moveToHead` on a well-formed list -/

theorem Inv.wellFormed {c : LRUCache} {es : List Entry} (h : Inv c es) : WellFormed c es :=
  ⟨h.links, h.data⟩

theorem WellFormed.entries_wf {c : LRUCache} {es : List Entry} (h : WellFormed c es) :
    entries c = some es := by
  have hnd := h.links.nodup
  have hlen := h.links.length_le
  have htail : ∀ e ∈ es, e.ptr ≠ c.tail := by
    intro e he heq
    have hnd' : (es.map Entry.ptr ++ [c.tail]).Nodup := (List.nodup_cons.1 hnd).2
    exact List.disjoint_of_nodup_append hnd' (List.mem_map_of_mem _ he) (by simp [heq])
  obtain ⟨n, hn, hw⟩ := walk_of_chain c es c.brk c.head h.links.fwd
    (fun e he => ⟨htail e he, h.data e he⟩) (by omega)
  simp [entries, hn, hw]

theorem removeNode_links {c : LRUCache} {l1 l2 : List Entry} {e : Entry}
    (h : Links (view c) (chainOf (view c) (l1 ++ e :: l2))) :
    ∃ c', removeNode c e.ptr = some c' ∧
      Links (view c') (chainOf (view c) (l1 ++ l2)) ∧
      e.ptr ∉ chainOf (view c) (l1 ++ l2) ∧
      (view c').key = (view c).key ∧ (view c').val = (view c).val ∧
      (view c').cache = (view c).cache ∧ (view c').capacity = (view c).capacity ∧
      (view c').brk = (view c).brk ∧ (view c').head = (view c).head ∧
      (view c').tail = (view c).tail := by
  obtain ⟨A, p, q, B, hL, hL'⟩ := chainOf_split (view c) l1 l2 e
  rw [hL] at h
  have hf := h.fwd
  have hb := h.bwd
  rw [List.chain'_split, List.chain'_cons, List.chain'_cons] at hf hb
  obtain ⟨c', hc', hv⟩ := removeNode_view hb.2.1 hf.2.2.1 (h.alive p (by simp))
    (h.alive q (by simp))
  refine ⟨c', hc', ?_, ?_, ?_⟩
  · rw [hL', hv]
    exact h.unlink
  · rw [hL']
    have hnd : ((A ++ [p]) ++ e.ptr :: (q :: B)).Nodup := by simpa using h.nodup
    simpa using not_mem_of_nodup_middle hnd
  · rw [hv]
    simp

theorem moveToHead_wf {c : LRUCache} {l1 l2 : List Entry} {e : Entry}
    (h : WellFormed c (l1 ++ e :: l2)) :
    ∃ c', moveToHead c e.ptr = some c' ∧ WellFormed c' (e :: (l1 ++ l2)) ∧
      c'.cache = c.cache ∧ c'.capacity = c.capacity := by
  obtain ⟨c1, hc1, hl1, hx1, hk1, hv1, hca1, hcp1, hb1, hh1, ht1⟩ := removeNode_links h.links
  have hch1 : chainOf (view c1) (l1 ++ l2) = chainOf (view c) (l1 ++ l2) := by
    simp [chainOf, hh1, ht1]
  have hmem : e ∈ l1 ++ e :: l2 := by simp
  have hxa : ((view c1).key e.ptr).isSome := by
    rw [hk1, (h.data e hmem).1]
    rfl
  have hxb : e.ptr < (view c1).brk := by
    rw [hb1]
    exact h.links.bound e.ptr (by simp [chainOf])
  obtain ⟨c2, hc2, hl2, hk2, hv2, hca2, hcp2, hb2, hh2, ht2⟩ :=
    addNode_links (hch1 ▸ hl1) (hch1 ▸ hx1) hxa hxb
  refine ⟨c2, by simp [moveToHead, hc1, hc2], ⟨?_, ?_⟩, hca2.trans hca1, hcp2.trans hcp1⟩
  · have : chainOf (view c2) (e :: (l1 ++ l2)) =
        (view c1).head :: e.ptr :: ((l1 ++ l2).map Entry.ptr ++ [(view c1).tail]) := by
      simp [chainOf, hh2, ht2]
    rw [this]
    exact hl2
  · intro e' he'
    rw [hk2, hv2, hk1, hv1]
    refine h.data e' ?_
    simp only [List.mem_cons, List.mem_append] at he' ⊢
    tauto

/-- C15 (`moveToHead` is a pure reorder): for every well-formed list with entries
`l1 ++ e :: l2` (nodes with their keys and values, between the sentinels),
`moveToHead` applied to the node of `e` succeeds and yields the well-formed list with
entries `e :: (l1 ++ l2)`: `e` first, the others in their previous relative order, the
same nodes with the same keys and values. When `e` was already first the list is
unchanged. The index is not touched. -/
theorem moveToHead_reorder (c : LRUCache) (l1 l2 : List Entry) (e : Entry)
    (h : WellFormed c (l1 ++ e :: l2)) :
    ∃ c', entries c = some (l1 ++ e :: l2) ∧ moveToHead c e.ptr = some c' ∧
      WellFormed c' (e :: (l1 ++ l2)) ∧ entries c' = some (e :: (l1 ++ l2)) ∧
      (e :: (l1 ++ l2)).Perm (l1 ++ e :: l2) ∧ (l1 = [] → entries c' = entries c) ∧
      c'.cache = c.cache := by
  obtain ⟨c', hc', hwf, hca, -⟩ := moveToHead_wf h
  refine ⟨c', h.entries_wf, hc', hwf, hwf.entries_wf, List.perm_middle.symm, fun h1 => ?_, hca⟩
  rw [hwf.entries_wf, h.entries_wf, h1]
  rfl

/-- Witness for C15: moving the node of key 1 (second in the list) to the head after
the first two calls of `main`. -/
theorem moveToHead_reorder_witness :
    ∃ r, run 2 (mainOps.take 2) = some r ∧
      WellFormed r.cache ([⟨4, 2, 2⟩] ++ ⟨3, 1, 1⟩ :: []) ∧
      ∃ c', entries r.cache = some ([⟨4, 2, 2⟩] ++ ⟨3, 1, 1⟩ :: []) ∧
        moveToHead r.cache (3 : Ptr) = some c' ∧
        WellFormed c' (⟨3, 1, 1⟩ :: ([⟨4, 2, 2⟩] ++ [])) ∧
        entries c' = some (⟨3, 1, 1⟩ :: ([⟨4, 2, 2⟩] ++ [])) ∧
        (⟨3, 1, 1⟩ :: ([⟨4, 2, 2⟩] ++ []) : List Entry).Perm ([⟨4, 2, 2⟩] ++ ⟨3, 1, 1⟩ :: []) ∧
        (([⟨4, 2, 2⟩] : List Entry) = [] → entries c' = entries r.cache) ∧
        c'.cache = r.cache.cache := by
  obtain ⟨r, es, hr, h⟩ := run_inv 2 (mainOps.take 2)
  have he : entries r.cache = some ([⟨4, 2, 2⟩] ++ ⟨3, 1, 1⟩ :: []) :=
    eq_of_run_map (fun r => entries r.cache) hr (by decide!)
  have hes : es = [⟨4, 2, 2⟩] ++ ⟨3, 1, 1⟩ :: [] :=
    Option.some.inj (h.inv.entries_eq.symm.trans he)
  have hwf : WellFormed r.cache ([⟨4, 2, 2⟩] ++ ⟨3, 1, 1⟩ :: []) := hes ▸ h.inv.wellFormed
  exact ⟨r, hr, hwf, moveToHead_reorder r.cache [⟨4, 2, 2⟩] [] ⟨3, 1, 1⟩ hwf⟩

/-! ## Simulation of the abstract cache -/

theorem absGet_miss {es : List Entry} {k : Int} (hk : k ∉ es.map Entry.key) :
    absGet (es.map fun e => (e.key, e.val)) k = (-1, es.map fun e => (e.key, e.val)) := by
  have : (es.map fun e => (e.key, e.val)).find? (fun x => decide (x.1 = k)) = none := by
    rw [List.find?_eq_none]
    intro x hx
    obtain ⟨e, he, rfl⟩ := List.mem_map.1 hx
    have : e.key ≠ k := fun heq => hk (heq ▸ List.mem_map_of_mem _ he)
    simpa using this
  simp only [absGet, this]

theorem absGet_hit {l1 l2 : List Entry} {e : Entry}
    (hnd : ((l1 ++ e :: l2).map Entry.key).Nodup) :
    absGet ((l1 ++ e :: l2).map fun x => (x.key, x.val)) e.key =
      (e.val, (e :: (l1 ++ l2)).map fun x => (x.key, x.val)) := by
  have hnot : e.key ∉ l1.map Entry.key ++ l2.map Entry.key := by
    have : (l1.map Entry.key ++ e.key :: l2.map Entry.key).Nodup := by simpa using hnd
    exact not_mem_of_nodup_middle this
  have h1 : (l1.map fun x => (x.key, x.val)).find? (fun x => decide (x.1 = e.key)) = none := by
    rw [List.find?_eq_none]
    intro x hx
    obtain ⟨a, ha, rfl⟩ := List.mem_map.1 hx
    have : a.key ≠ e.key := fun heq =>
      hnot (List.mem_append_left _ (heq ▸ List.mem_map_of_mem _ ha))
    simpa using this
  have hfind : ((l1 ++ e :: l2).map fun x => (x.key, x.val)).find?
      (fun x => decide (x.1 = e.key)) = some (e.key, e.val) := by
    rw [List.map_append, List.find?_append, h1, List.map_cons]
    simp
  simp only [absGet, hfind, filter_middle hnd]
  rfl

theorem absPut_hit {l1 l2 : List Entry} {e : Entry} (cap v : Int)
    (hnd : ((l1 ++ e :: l2).map Entry.key).Nodup) :
    absPut cap ((l1 ++ e :: l2).map fun x => (x.key, x.val)) e.key v =
      (({ e with val := v } : Entry) :: (l1 ++ l2)).map fun x => (x.key, x.val) := by
  have hmem : e.key ∈ ((l1 ++ e :: l2).map fun x => (x.key, x.val)).map Prod.fst := by
    simp
  simp only [absPut, if_pos hmem, filter_middle hnd]
  rfl

theorem absPut_new {es : List Entry} {k : Int} (cap v : Int) (p : Ptr)
    (hcap : 0 ≤ cap) (hint : cap < 2 ^ 64) (hk : k ∉ es.map Entry.key) :
    absPut cap (es.map fun x => (x.key, x.val)) k v =
      (if sizeExceeds (es.length + 1) cap then (⟨p, k, v⟩ :: es : List Entry).dropLast
        else ⟨p, k, v⟩ :: es).map fun x => (x.key, x.val) := by
  have hmem : k ∉ (es.map fun x => (x.key, x.val)).map Prod.fst := by
    simpa [Function.comp_def] using hk
  have hmod : cap % 2 ^ 64 = cap := Int.emod_eq_of_lt hcap hint
  simp only [absPut, if_neg hmem, sizeExceeds, hmod, List.length_cons, List.length_map,
    decide_eq_true_eq]
  by_cases hex : ((es.length + 1 : Nat) : Int) > cap
  · rw [if_pos hex, if_pos hex, List.map_dropLast]
    rfl
  · rw [if_neg hex, if_neg hex]
    rfl

/-- One call on a represented state corresponds to one call on the abstract cache. -/
theorem RunInv.step_abs {cap : Int} (hcap : 1 ≤ cap) (hint : cap < 2 ^ 31) {r : Run}
    {es : List Entry} (h : RunInv cap r es) (op : Op) :
    ∃ r' es', r.step op = some r' ∧ RunInv cap r' es' ∧
      (r'.outs, es'.map fun e => (e.key, e.val)) =
        absStep cap (r.outs, es.map fun e => (e.key, e.val)) op := by
  cases op with
  | get k =>
    cases hf : find r.cache.cache k with
    | none =>
      obtain ⟨r', hr', -, houts, hinv⟩ := h.step_get_miss hf
      refine ⟨r', es, hr', hinv, ?_⟩
      simp only [absStep, absGet_miss (h.inv.find_none_iff.1 hf), houts]
    | some p =>
      obtain ⟨l1, e, l2, c', r', hes, hek, -, hr', -, houts, hinv⟩ := h.step_get_hit hf
      subst hes
      refine ⟨r', _, hr', hinv, ?_⟩
      simp only [absStep, ← hek, absGet_hit h.inv.keys, houts]
  | put k v =>
    cases hf : find r.cache.cache k with
    | some p =>
      obtain ⟨l1, e, l2, c', r', hes, hek, -, hr', -, houts, hinv⟩ := h.step_put_hit v hf
      subst hes
      refine ⟨r', _, hr', hinv, ?_⟩
      simp only [absStep, ← hek, absPut_hit cap v h.inv.keys, houts]
    | none =>
      obtain ⟨c', r', -, hr', -, houts, -, hinv⟩ := h.step_put_new v hf
      refine ⟨r', _, hr', hinv, ?_⟩
      simp only [absStep, houts,
        absPut_new cap v r.cache.brk (by omega) (by omega) (h.inv.find_none_iff.1 hf)]

theorem RunInv.steps_abs {cap : Int} (hcap : 1 ≤ cap) (hint : cap < 2 ^ 31) :
    ∀ (ops : List Op) {r : Run} {es : List Entry}, RunInv cap r es →
      ∃ r' es', r.steps ops = some r' ∧ RunInv cap r' es' ∧
        (r'.outs, es'.map fun e => (e.key, e.val)) =
          ops.foldl (absStep cap) (r.outs, es.map fun e => (e.key, e.val))
  | [], r, es, h => ⟨r, es, rfl, h, rfl⟩
  | op :: ops, r, es, h => by
    obtain ⟨r1, es1, hr1, h1, e1⟩ := h.step_abs hcap hint op
    obtain ⟨r2, es2, hr2, h2, e2⟩ := RunInv.steps_abs hcap hint ops h1
    refine ⟨r2, es2, by simp [Run.steps, hr1, hr2], h2, ?_⟩
    rw [e2, e1]
    rfl

/-- C16 (refinement): for every sequence of calls on a cache of capacity `cap ≥ 1`
(`cap` an `int`, so below `2 ^ 31`), the pointer-based implementation runs to
completion, its `get` results are those of the abstract cache, and the key-value pairs
read from the head sentinel to the tail sentinel are the abstract list, which is free
of duplicate keys. -/
theorem refines_abstract (cap : Int) (hcap : 1 ≤ cap) (hint : cap < 2 ^ 31)
    (ops : List Op) :
    ∃ r, run cap ops = some r ∧ r.outs = (absRun cap ops).1 ∧
      contents r.cache = some (absRun cap ops).2 ∧
      ((absRun cap ops).2.map Prod.fst).Nodup := by
  obtain ⟨c, hc, hinv, hcap', -⟩ := new_inv cap
  have h0 : RunInv cap ⟨c, 1, fun _ => 0, []⟩ [] :=
    ⟨hinv, hcap', by simpa using Int.emod_nonneg cap (by norm_num), by simp, by simp⟩
  obtain ⟨r, es, hr, h, e⟩ := RunInv.steps_abs hcap hint ops h0
  have e' : (r.outs, es.map fun e => (e.key, e.val)) = absRun cap ops := e
  refine ⟨r, by simp [run, hc, hr], ?_, ?_, ?_⟩
  · rw [← e']
  · rw [← e', h.inv.contents_eq]
  · rw [← e']
    simpa [Function.comp_def] using h.inv.keys

/-- Witness for C16: the program of `main` on its capacity-2 cache. -/
theorem refines_abstract_witness :
    (1 : Int) ≤ 2 ∧ (2 : Int) < 2 ^ 31 ∧
      ∃ r, run 2 mainOps = some r ∧ r.outs = (absRun 2 mainOps).1 ∧
        contents r.cache = some (absRun 2 mainOps).2 ∧
        ((absRun 2 mainOps).2.map Prod.fst).Nodup :=
  ⟨by decide, by decide, refines_abstract 2 (by decide) (by decide) mainOps⟩

/-! ## Frame of `put` -/

theorem filter_front {es : List Entry} {e : Entry}
    (hnd : ((e :: es).map Entry.key).Nodup) :
    ((e :: es).map fun x => (x.key, x.val)).filter (fun x => decide (x.1 ≠ e.key)) =
      es.map fun x => (x.key, x.val) :=
  @filter_middle [] es e hnd

theorem filter_absent {es : List Entry} {k : Int} (hk : k ∉ es.map Entry.key) :
    (es.map fun x => (x.key, x.val)).filter (fun x => decide (x.1 ≠ k)) =
      es.map fun x => (x.key, x.val) := by
  refine List.filter_eq_self.2 fun a ha => ?_
  obtain ⟨x, hx, rfl⟩ := List.mem_map.1 ha
  have : x.key ≠ k := fun heq => hk (heq ▸ List.mem_map_of_mem _ hx)
  simpa using this

/-- C18 (`put` frame): in every reachable state (of a cache of any capacity) and for
every `put(k, v)`, the call succeeds and the pairs with a key other than `k` that the
list holds afterwards form a subsequence of those it held before: each key `k' ≠ k`
resident before and after keeps its value, and these keys keep their relative
order. -/
theorem put_frame (cap : Int) (ops : List Op) (r : Run) (hr : run cap ops = some r)
    (k v : Int) :
    ∃ kvs c' kvs', contents r.cache = some kvs ∧ put r.cache k v = some c' ∧
      contents c' = some kvs' ∧
      (kvs'.filter fun x => decide (x.1 ≠ k)).Sublist (kvs.filter fun x => decide (x.1 ≠ k)) ∧
      (∀ k' v1 v2, k' ≠ k → (k', v1) ∈ kvs → (k', v2) ∈ kvs' → v1 = v2) := by
  obtain ⟨es, h⟩ := RunInv.of_run hr
  have key : ∃ c' es', put r.cache k v = some c' ∧ Inv c' es' ∧
      ((es'.map fun x => (x.key, x.val)).filter fun x => decide (x.1 ≠ k)).Sublist
        ((es.map fun x => (x.key, x.val)).filter fun x => decide (x.1 ≠ k)) := by
    cases hf : find r.cache.cache k with
    | some p =>
      obtain ⟨l1, e, l2, c', hes, hek, -, hput, hinv, -, -, -⟩ := put_hit v h.inv hf
      subst hes
      subst hek
      refine ⟨c', _, hput, hinv, ?_⟩
      have h1 := filter_front hinv.keys
      have h2 := filter_middle h.inv.keys
      simp only at h1
      rw [h1, h2]
    | none =>
      obtain ⟨c', hput, -, -, hinv⟩ := put_new v h.inv hf
      refine ⟨c', _, hput, hinv, ?_⟩
      have hnot := h.inv.find_none_iff.1 hf
      have hnd : (((⟨r.cache.brk, k, v⟩ : Entry) :: es).map Entry.key).Nodup := by
        simp only [List.map_cons, List.nodup_cons]
        exact ⟨hnot, h.inv.keys⟩
      have hsub : (if sizeExceeds (es.length + 1) r.cache.capacity
          then (⟨r.cache.brk, k, v⟩ :: es : List Entry).dropLast
          else ⟨r.cache.brk, k, v⟩ :: es).Sublist (⟨r.cache.brk, k, v⟩ :: es) := by
        split
        · exact List.dropLast_sublist _
        · exact List.Sublist.refl _
      have h1 := ((hsub.map fun x : Entry => (x.key, x.val)).filter
        fun x => decide (x.1 ≠ k))
      rw [filter_absent hnot]
      have h2 := filter_front hnd
      simp only at h2
      rw [h2] at h1
      exact h1
  obtain ⟨c', es', hput, hinv, hsub⟩ := key
  refine ⟨_, c', _, h.inv.contents_eq, hput, hinv.contents_eq, hsub, ?_⟩
  intro k' v1 v2 hne h1 h2
  have h2' : (k', v2) ∈ (es'.map fun x => (x.key, x.val)).filter fun x => decide (x.1 ≠ k) :=
    List.mem_filter.2 ⟨h2, by simpa using hne⟩
  have h3 : (k', v2) ∈ es.map fun x => (x.key, x.val) :=
    (List.mem_filter.1 (hsub.subset h2')).1
  have hnd : ((es.map fun x => (x.key, x.val)).map Prod.fst).Nodup := by
    simpa [Function.comp_def] using h.inv.keys
  have := List.inj_on_of_nodup_map hnd h1 h3 rfl
  exact (Prod.mk.inj this).2

/-- Witness for C18: `put(3, 3)` in `main`, which evicts key 2 and keeps key 1. -/
theorem put_frame_witness :
    ∃ r, run 2 (mainOps.take 3) = some r ∧
      ∃ kvs c' kvs', contents r.cache = some kvs ∧ put r.cache 3 3 = some c' ∧
        contents c' = some kvs' ∧
        (kvs'.filter fun x => decide (x.1 ≠ 3)).Sublist
          (kvs.filter fun x => decide (x.1 ≠ 3)) ∧
        (∀ k' v1 v2, k' ≠ 3 → (k', v1) ∈ kvs → (k', v2) ∈ kvs' → v1 = v2) := by
  obtain ⟨r, -, hr, -⟩ := run_inv 2 (mainOps.take 3)
  exact ⟨r, hr, put_frame 2 (mainOps.take 3) r hr 3 3⟩

/-! ## Calls that do not reach the eviction threshold -/

/-- A call made while the index holds fewer keys than the converted capacity keeps
every resident key, and a `put` of a new key adds exactly that key. -/
theorem RunInv.step_below {cap : Int} {r : Run} {es : List Entry} (h : RunInv cap r es)
    (hroom : (es.length : Int) < cap % 2 ^ 64) (op : Op) :
    ∃ r' es', r.step op = some r' ∧ RunInv cap r' es' ∧
      (∀ k', k' ∈ es.map Entry.key → k' ∈ es'.map Entry.key) ∧
      (∀ k v, op = .put k v → find r.cache.cache k = none →
        es'.length = es.length + 1 ∧ es'.map Entry.key = k :: es.map Entry.key) := by
  cases op with
  | get k =>
    cases hf : find r.cache.cache k with
    | none =>
      obtain ⟨r', hr', -, -, hinv⟩ := h.step_get_miss hf
      exact ⟨r', es, hr', hinv, fun _ hk => hk, fun _ _ ho => by cases ho⟩
    | some p =>
      obtain ⟨l1, e, l2, c', r', hes, -, -, hr', -, -, hinv⟩ := h.step_get_hit hf
      subst hes
      refine ⟨r', _, hr', hinv, fun k' hk' => ?_, fun _ _ ho => by cases ho⟩
      simp only [List.map_append, List.map_cons, List.mem_append, List.mem_cons] at hk' ⊢
      tauto
  | put k v =>
    cases hf : find r.cache.cache k with
    | some p =>
      obtain ⟨l1, e, l2, c', r', hes, -, -, hr', -, -, hinv⟩ := h.step_put_hit v hf
      subst hes
      refine ⟨r', _, hr', hinv, fun k' hk' => ?_, fun k1 v1 ho hn => ?_⟩
      · simp only [List.map_append, List.map_cons, List.mem_append, List.mem_cons] at hk' ⊢
        tauto
      · cases ho
        rw [hf] at hn
        cases hn
    | none =>
      obtain ⟨c', r', -, hr', -, -, -, hinv⟩ := h.step_put_new v hf
      have hex : ¬ sizeExceeds (es.length + 1) cap = true := by
        simp only [sizeExceeds, decide_eq_true_eq]
        push_cast
        omega
      rw [if_neg hex] at hinv
      refine ⟨r', _, hr', hinv, fun k' hk' => ?_, fun k1 v1 ho _ => ?_⟩
      · simp only [List.map_cons, List.mem_cons]
        exact Or.inr hk'
      · cases ho
        exact ⟨rfl, rfl⟩

/-- A sequence of `put`s of pairwise distinct new keys that stays within the converted
capacity adds all of them. -/
theorem RunInv.puts_distinct {cap : Int} :
    ∀ (kvs : List (Int × Int)) {r : Run} {es : List Entry}, RunInv cap r es →
      (kvs.map Prod.fst).Nodup → (∀ k ∈ kvs.map Prod.fst, k ∉ es.map Entry.key) →
      ((es.length + kvs.length : Nat) : Int) ≤ cap % 2 ^ 64 →
      ∃ r' es', r.steps (kvs.map fun x => Op.put x.1 x.2) = some r' ∧ RunInv cap r' es' ∧
        es'.length = es.length + kvs.length ∧
        ∀ k, k ∈ es'.map Entry.key ↔ k ∈ kvs.map Prod.fst ∨ k ∈ es.map Entry.key
  | [], r, es, h, _, _, _ => ⟨r, es, rfl, h, rfl, fun k => by simp⟩
  | (k, v) :: kvs, r, es, h, hnd, hnew, hlen => by
    simp only [List.map_cons, List.nodup_cons] at hnd
    have hf : find r.cache.cache k = none := h.inv.find_none_iff.2 (hnew k (by simp))
    have hroom : (es.length : Int) < cap % 2 ^ 64 := by
      simp only [List.length_cons] at hlen
      push_cast at hlen
      omega
    obtain ⟨r1, es1, hr1, h1, -, hput⟩ := h.step_below hroom (.put k v)
    obtain ⟨hl1, hk1⟩ := hput k v rfl hf
    have hnew1 : ∀ k' ∈ kvs.map Prod.fst, k' ∉ es1.map Entry.key := by
      intro k' hk' hmem
      rw [hk1] at hmem
      rcases List.mem_cons.1 hmem with h2 | h2
      · exact hnd.1 (h2 ▸ hk')
      · exact hnew k' (by simp only [List.map_cons, List.mem_cons]; exact Or.inr hk') h2
    have hlen1 : ((es1.length + kvs.length : Nat) : Int) ≤ cap % 2 ^ 64 := by
      simp only [List.length_cons] at hlen
      rw [hl1]
      push_cast at hlen ⊢
      omega
    obtain ⟨r2, es2, hr2, h2, hl2, hk2⟩ := RunInv.puts_distinct kvs h1 hnd.2 hnew1 hlen1
    refine ⟨r2, es2, by simp [Run.steps, hr1, hr2], h2, ?_, fun k' => ?_⟩
    · rw [hl2, hl1]
      simp only [List.length_cons]
      omega
    · rw [hk2, hk1]
      simp only [List.map_cons, List.mem_cons]
      tauto

/-- Every call keeps the keys of the entries within any set that contains the key of
the call. -/
theorem RunInv.step_forall {cap : Int} {r : Run} {es : List Entry} (h : RunInv cap r es)
    (P : Int → Prop) (hP : ∀ k ∈ es.map Entry.key, P k) (op : Op) (hop : P op.key) :
    ∃ r' es', r.step op = some r' ∧ RunInv cap r' es' ∧ ∀ k ∈ es'.map Entry.key, P k := by
  cases op with
  | get k =>
    cases hf : find r.cache.cache k with
    | none =>
      obtain ⟨r', hr', -, -, hinv⟩ := h.step_get_miss hf
      exact ⟨r', es, hr', hinv, hP⟩
    | some p =>
      obtain ⟨l1, e, l2, c', r', hes, -, -, hr', -, -, hinv⟩ := h.step_get_hit hf
      subst hes
      refine ⟨r', _, hr', hinv, fun k' hk' => hP k' ?_⟩
      simp only [List.map_append, List.map_cons, List.mem_append, List.mem_cons] at hk' ⊢
      tauto
  | put k v =>
    cases hf : find r.cache.cache k with
    | some p =>
      obtain ⟨l1, e, l2, c', r', hes, -, -, hr', -, -, hinv⟩ := h.step_put_hit v hf
      subst hes
      refine ⟨r', _, hr', hinv, fun k' hk' => hP k' ?_⟩
      simp only [List.map_append, List.map_cons, List.mem_append, List.mem_cons] at hk' ⊢
      tauto
    | none =>
      obtain ⟨c', r', -, hr', -, -, -, hinv⟩ := h.step_put_new v hf
      refine ⟨r', _, hr', hinv, fun k' hk' => ?_⟩
      have hsub : (if sizeExceeds (es.length + 1) cap
          then (⟨r.cache.brk, k, v⟩ :: es : List Entry).dropLast
          else ⟨r.cache.brk, k, v⟩ :: es).Sublist (⟨r.cache.brk, k, v⟩ :: es) := by
        split
        · exact List.dropLast_sublist _
        · exact List.Sublist.refl _
      have hk'' := (hsub.map Entry.key).subset hk'
      rcases List.mem_cons.1 hk'' with h1 | h1
      · exact h1 ▸ hop
      · exact hP k' h1

theorem RunInv.steps_forall {cap : Int} (P : Int → Prop) :
    ∀ (ops : List Op) {r : Run} {es : List Entry}, RunInv cap r es →
      (∀ k ∈ es.map Entry.key, P k) → (∀ op ∈ ops, P op.key) →
      ∃ r' es', r.steps ops = some r' ∧ RunInv cap r' es' ∧ ∀ k ∈ es'.map Entry.key, P k
  | [], r, es, h, hP, _ => ⟨r, es, rfl, h, hP⟩
  | op :: ops, r, es, h, hP, hops => by
    obtain ⟨r1, es1, hr1, h1, hP1⟩ := h.step_forall P hP op (hops op (by simp))
    obtain ⟨r2, es2, hr2, h2, hP2⟩ := RunInv.steps_forall P ops h1 hP1
      (fun o ho => hops o (List.mem_cons_of_mem _ ho))
    exact ⟨r2, es2, by simp [Run.steps, hr1, hr2], h2, hP2⟩

/-- The keys of the index are keys of earlier calls. -/
theorem run_keys_forall (P : Int → Prop) {cap : Int} {ops : List Op} {r : Run}
    (hops : ∀ op ∈ ops, P op.key) (hr : run cap ops = some r) :
    ∃ es, RunInv cap r es ∧ ∀ k ∈ es.map Entry.key, P k := by
  obtain ⟨c, hc, hinv, hcap', -⟩ := new_inv cap
  have h0 : RunInv cap ⟨c, 1, fun _ => 0, []⟩ [] :=
    ⟨hinv, hcap', by simpa using Int.emod_nonneg cap (by norm_num), by simp, by simp⟩
  obtain ⟨r', es, hr', h, hP⟩ := RunInv.steps_forall P ops h0 (by simp) hops
  have : run cap ops = some r' := by simp [run, hc, hr']
  rw [hr] at this
  cases this
  exact ⟨es, h, hP⟩

/-- There are only `2 ^ 32` values of type `int`. -/
theorem length_le_of_nodup_isInt {l : List Int} (hnd : l.Nodup) (hl : ∀ x ∈ l, IsInt x) :
    l.length ≤ 2 ^ 32 := by
  have hinj : ∀ x ∈ l, ∀ y ∈ l, (x + 2 ^ 31).toNat = (y + 2 ^ 31).toNat → x = y := by
    intro x hx y hy hxy
    have h1 := hl x hx
    have h2 := hl y hy
    unfold IsInt at h1 h2
    omega
  have hnd' : (l.map fun x => (x + 2 ^ 31).toNat).Nodup := hnd.map_on hinj
  have hb : ∀ n ∈ l.map (fun x => (x + 2 ^ 31).toNat), n < 2 ^ 32 := by
    intro n hn
    obtain ⟨x, hx, rfl⟩ := List.mem_map.1 hn
    have h1 := hl x hx
    unfold IsInt at h1
    omega
  simpa using length_le_of_nodup_bound hnd' hb

/-- C19 (negative capacity never evicts): for a cache constructed with a negative
`int` capacity `cap`, the comparison `cache.size() > capacity` uses the converted value
`cap mod 2 ^ 64 = 2 ^ 64 + cap`. In every state reached by calls whose keys are `int`s,
every further call with an `int` key succeeds and keeps all resident keys, and a `put`
of a new key grows the index by exactly that key. After `put`s of `n` pairwise distinct
keys, `n` not above the converted bound, the index holds exactly these `n` keys, more
than `cap`. -/
theorem negative_capacity_never_evicts (cap : Int) (hneg : cap < 0)
    (hint : -(2 ^ 31) ≤ cap) :
    cap % 2 ^ 64 = 2 ^ 64 + cap ∧
    (∀ (ops : List Op) (r : Run), (∀ o ∈ ops, IsInt o.key) → run cap ops = some r →
      ∀ op : Op, IsInt op.key →
        ∃ r', r.step op = some r' ∧
          (∀ k' ∈ indexKeys r.cache, k' ∈ indexKeys r'.cache) ∧
          (∀ k v, op = .put k v → find r.cache.cache k = none →
            (indexKeys r'.cache).length = (indexKeys r.cache).length + 1 ∧
            ∀ k', k' ∈ indexKeys r'.cache ↔ k' = k ∨ k' ∈ indexKeys r.cache)) ∧
    (∀ kvs : List (Int × Int), (kvs.map Prod.fst).Nodup →
      (kvs.length : Int) ≤ 2 ^ 64 + cap →
      ∃ r, run cap (kvs.map fun x => Op.put x.1 x.2) = some r ∧
        (indexKeys r.cache).length = kvs.length ∧
        (∀ k, k ∈ indexKeys r.cache ↔ k ∈ kvs.map Prod.fst) ∧
        cap < ((indexKeys r.cache).length : Int)) := by
  have hmod : cap % 2 ^ 64 = 2 ^ 64 + cap := by omega
  refine ⟨hmod, fun ops r hops hr op _ => ?_, fun kvs hnd hlen => ?_⟩
  · obtain ⟨es, h, hkeys⟩ := run_keys_forall IsInt hops hr
    have hsmall := length_le_of_nodup_isInt h.inv.keys hkeys
    have hroom : (es.length : Int) < cap % 2 ^ 64 := by
      rw [hmod]
      simp only [List.length_map] at hsmall
      have : ((es.length : Nat) : Int) ≤ 2 ^ 32 := by exact_mod_cast hsmall
      omega
    obtain ⟨r', es', hr', h', hkeep, hput⟩ := h.step_below hroom op
    refine ⟨r', hr', fun k' hk' => ?_, fun k v ho hf => ?_⟩
    · rw [h'.inv.mem_indexKeys]
      exact hkeep k' (h.inv.mem_indexKeys.1 hk')
    · obtain ⟨hl, hk⟩ := hput k v ho hf
      refine ⟨by rw [h'.inv.indexKeys_length, h.inv.indexKeys_length, hl], fun k' => ?_⟩
      rw [h'.inv.mem_indexKeys, h.inv.mem_indexKeys, hk]
      simp
  · obtain ⟨c, hc, hinv, hcap', -⟩ := new_inv cap
    have h0 : RunInv cap ⟨c, 1, fun _ => 0, []⟩ [] :=
      ⟨hinv, hcap', by simpa using Int.emod_nonneg cap (by norm_num), by simp, by simp⟩
    obtain ⟨r, es, hr, h, hl, hk⟩ := RunInv.puts_distinct kvs h0 hnd (by simp)
      (by rw [hmod]; simpa using hlen)
    refine ⟨r, by simp [run, hc, hr], ?_, fun k => ?_, ?_⟩
    · rw [h.inv.indexKeys_length, hl]
      simp
    · rw [h.inv.mem_indexKeys, hk]
      simp
    · have : (0 : Int) ≤ ((indexKeys r.cache).length : Int) := Int.natCast_nonneg _
      omega

/-- Witness for C19: three `put`s of distinct keys on a cache of capacity `-1`. -/
theorem negative_capacity_never_evicts_witness :
    (-1 : Int) < 0 ∧ -(2 ^ 31) ≤ (-1 : Int) ∧
      ∃ r, run (-1) ([(1, 1), (2, 2), (3, 3)].map fun x => Op.put x.1 x.2) = some r ∧
        (indexKeys r.cache).length = [((1 : Int), (1 : Int)), (2, 2), (3, 3)].length ∧
        (∀ k, k ∈ indexKeys r.cache ↔ k ∈ [((1 : Int), (1 : Int)), (2, 2), (3, 3)].map Prod.fst) ∧
        (-1 : Int) < ((indexKeys r.cache).length : Int) :=
  ⟨by decide, by decide,
    (negative_capacity_never_evicts (-1) (by decide) (by decide)).2.2
      [(1, 1), (2, 2), (3, 3)] (by decide) (by decide)⟩

/-! ## Capacity zero -/

theorem load_of_free {c c' : LRUCache} {p : Ptr} (h : free c p = some c') :
    load c' p = none := by
  simp only [free, Option.map_eq_some'] at h
  obtain ⟨n, -, rfl⟩ := h
  simp [load]

theorem RunInv.nil_of_zero {r : Run} {es : List Entry} (h : RunInv 0 r es) : es = [] := by
  have := h.size_le
  have h0 : (0 : Int) % 2 ^ 64 = 0 := by decide
  rw [h0] at this
  exact List.length_eq_zero.1 (by omega)

theorem RunInv.steps_zero :
    ∀ (ops : List Op) {r : Run} {es : List Entry}, RunInv 0 r es →
      (∀ x ∈ r.outs, x = -1) →
      ∃ r', r.steps ops = some r' ∧ RunInv 0 r' [] ∧ ∀ x ∈ r'.outs, x = -1
  | [], r, es, h, houts => by
    have := h.nil_of_zero
    subst this
    exact ⟨r, rfl, h, houts⟩
  | op :: ops, r, es, h, houts => by
    have hes := h.nil_of_zero
    subst hes
    have step : ∃ r1 es1, r.step op = some r1 ∧ RunInv 0 r1 es1 ∧ ∀ x ∈ r1.outs, x = -1 := by
      cases op with
      | get k =>
        have hf : find r.cache.cache k = none := h.inv.find_none_iff.2 (by simp)
        obtain ⟨r1, hr1, -, ho, h1⟩ := h.step_get_miss hf
        refine ⟨r1, [], hr1, h1, fun x hx => ?_⟩
        rw [ho] at hx
        rcases List.mem_append.1 hx with h2 | h2
        · exact houts x h2
        · exact List.mem_singleton.1 h2
      | put k v =>
        have hf : find r.cache.cache k = none := h.inv.find_none_iff.2 (by simp)
        obtain ⟨c', r1, -, hr1, -, ho, -, h1⟩ := h.step_put_new v hf
        exact ⟨r1, _, hr1, h1, fun x hx => houts x (ho ▸ hx)⟩
    obtain ⟨r1, es1, hr1, h1, ho1⟩ := step
    obtain ⟨r2, hr2, h2, ho2⟩ := RunInv.steps_zero ops h1 ho1
    exact ⟨r2, by simp [Run.steps, hr1, hr2], h2, ho2⟩

/-- C20 (zero capacity stays empty): on a cache constructed with capacity 0 every
sequence of `get`/`put` calls runs to completion; afterwards the index and the list are
empty and every `get` so far has returned `-1`. Every further `put(k, v)` links the new
node as the only entry, `popTail` returns that same node (at the address `new` just
returned), the node is deleted, index and list are empty again, and the `get(k)`
issued right after returns `-1`. -/
theorem zero_capacity_stays_empty (ops : List Op) :
    ∃ r, run 0 ops = some r ∧ r.cache.cache = [] ∧ entries r.cache = some [] ∧
      (∀ x ∈ r.outs, x = -1) ∧
      ∀ k v, ∃ c3 c4 c' c'',
        addNode { (alloc r.cache k v).2 with cache := assign r.cache.cache k r.cache.brk }
          r.cache.brk = some c3 ∧
        entries c3 = some [⟨r.cache.brk, k, v⟩] ∧ indexKeys c3 = [k] ∧
        popTail c3 = some (r.cache.brk, c4) ∧
        put r.cache k v = some c' ∧ load c' r.cache.brk = none ∧
        c'.cache = [] ∧ entries c' = some [] ∧ get c' k = some (-1, c'') := by
  obtain ⟨c, hc, hinv, hcap', -⟩ := new_inv 0
  have h0 : RunInv 0 ⟨c, 1, fun _ => 0, []⟩ [] :=
    ⟨hinv, hcap', by decide, by simp, by simp⟩
  obtain ⟨r, hr, h, houts⟩ := RunInv.steps_zero ops h0 (by simp)
  have hcache : r.cache.cache = [] := List.length_eq_zero.1 (by simpa using h.inv.length_eq)
  refine ⟨r, by simp [run, hc, hr], hcache, h.inv.entries_eq, houts, fun k v => ?_⟩
  have hf : find r.cache.cache k = none := h.inv.find_none_iff.2 (by simp)
  obtain ⟨c3, hc3, hinv3, hcp3, -⟩ := insert_inv v h.inv hf
  have hinv3' : Inv c3 ([] ++ [⟨r.cache.brk, k, v⟩]) := hinv3
  obtain ⟨c4, n, c', hpop, hload, hkey, hfree, hinv', -, -⟩ := evict_inv hinv3'
  have hkeys3 : indexKeys c3 = [k] := by
    have := hinv3.cache_keys
    simpa [indexKeys] using this
  have hex : sizeExceeds c3.cache.length c3.capacity = true := by
    rw [hinv3.length_eq, hcp3, h.cap_eq]
    show sizeExceeds 1 0 = true
    decide
  simp only at hpop hload hkey hfree
  rw [hkey] at hfree
  have hput : put r.cache k v = some c' := by
    rw [put_miss_eq v hf, hc3, Option.some_bind, if_pos hex]
    simp [hpop, hload, hkey, hfree]
  have hcache' : c'.cache = [] := List.length_eq_zero.1 (by simpa using hinv'.length_eq)
  have hf' : find c'.cache k = none := hinv'.find_none_iff.2 (by simp)
  exact ⟨c3, c4, c', c', hc3, hinv3.entries_eq, hkeys3, hpop, hput, load_of_free hfree,
    hcache', hinv'.entries_eq, get_miss hf'⟩

end LRU
